import Mathlib

/-!
Verification of the `threadsafe` container library.

The definitions below are a shallow embedding, into Lean, of the Go source
of the repository: the binary-heap engine shared by `CorePriorityQueue`,
`IndexedPriorityQueue`, `RWMutexPriorityQueue` and `RWMutexHeap`, the three
map strategies (`MutexMap`, `RWMutexMap`, `SyncMap`), the FIFO queue
(`RWMutexQueue`) and the lock/snapshot discipline of the `Range`/`All`
traversals.  A Go slice is modelled as a length `n : Nat` together with a
total index function `a : Nat → T` (truncation `items[:last]` only lowers
`n`); machine `int` indices of the public index-based API are modelled as
`Int`; `panic` is modelled as `Except.error`; locks are immaterial for the
single-threaded functional claims, except in the trace model used for the
snapshot-discipline claims, where acquire/release events are made explicit.
-/

set_option maxHeartbeats 1000000

namespace Threadsafe

/-- A strict weak ordering, the documented precondition on the `less`
comparator of every heap-based container: irreflexive, transitive, and with
transitive incomparability (equivalently: negatively transitive). -/
structure StrictWeakOrder {T : Type} (less : T → T → Bool) : Prop where
  irrefl : ∀ x, less x x = false
  lt_trans : ∀ x y z, less x y = true → less y z = true → less x z = true
  negTrans : ∀ x y z, less x y = false → less y z = false → less x z = false

namespace StrictWeakOrder

variable {T : Type} {less : T → T → Bool}

theorem asymm (hs : StrictWeakOrder less) {x y : T}
    (h : less x y = true) : less y x = false := by
  cases hyx : less y x
  · rfl
  · have hxx := hs.lt_trans x y x h hyx
    rw [hs.irrefl x] at hxx
    simp at hxx

/-- From `x < y` and `¬(x < z)` conclude `¬(y < z)`. -/
theorem not_lt_right (hs : StrictWeakOrder less) {x y z : T} (h1 : less x y = true)
    (h2 : less x z = false) : less y z = false := by
  cases hyz : less y z
  · rfl
  · have := hs.lt_trans x y z h1 hyz
    rw [h2] at this
    simp at this

/-- From `y < z` and `¬(x < z)` conclude `¬(x < y)`. -/
theorem not_lt_left (hs : StrictWeakOrder less) {x y z : T} (h1 : less y z = true)
    (h2 : less x z = false) : less x y = false := by
  cases hxy : less x y
  · rfl
  · have := hs.lt_trans x y z hxy h1
    rw [h2] at this
    simp at this

end StrictWeakOrder

/-!
## The binary-heap engine

`CorePriorityQueue`, `IndexedPriorityQueue`, `RWMutexPriorityQueue` and
`RWMutexHeap` all implement the same array-backed binary min-heap: parent of
`i` is `(i-1)/2`, children are `2i+1`, `2i+2`, `up`/`down` sift elements and
every exchange of two slots goes through `swap`, which in the indexed
variants fires the optional `onSwap` callback.  The callback is modelled as
an optional function `cb` transforming the backing array after the exchange
(the Go callback mutates `items` in place through the slice it receives).
-/

/-- A heap/queue backing store: a Go slice, as length plus index function. -/
structure St (T : Type) where
  n : Nat
  a : Nat → T

variable {T : Type}

/-- `swap` of `IndexedPriorityQueue`/`RWMutexPriorityQueue` (and, with
`cb = none`, of `CorePriorityQueue`): exchange slots `i` and `j` and fire the
`onSwap` callback; a self-swap returns immediately without firing it. -/
def swap (cb : Option (Nat → Nat → (Nat → T) → (Nat → T)))
    (a : Nat → T) (i j : Nat) : Nat → T :=
  if i = j then a
  else
    let b : Nat → T := fun k => if k = i then a j else if k = j then a i else a k
    match cb with
    | none => b
    | some f => f i j b

/-- `up`: sift the element at `idx` toward the root, swapping with the parent
`(idx-1)/2` while `less` says it outranks it. -/
def up (less : T → T → Bool) (cb : Option (Nat → Nat → (Nat → T) → (Nat → T)))
    (a : Nat → T) (idx : Nat) : Nat → T :=
  if _h : idx = 0 then a
  else
    let p := (idx - 1) / 2
    if less (a idx) (a p) then up less cb (swap cb a idx p) p else a
termination_by idx
decreasing_by omega

/-- `down`: sift the element at `idx` toward the leaves inside the first `n`
slots, following the smaller child; returns the array and whether the element
moved.  The Go loop's `moved` accumulator is the last argument. -/
def down (less : T → T → Bool) (cb : Option (Nat → Nat → (Nat → T) → (Nat → T)))
    (n : Nat) (a : Nat → T) (idx : Nat) (moved : Bool) : (Nat → T) × Bool :=
  let l := 2 * idx + 1
  if _hl : n ≤ l then (a, moved)
  else
    let smallest := if l + 1 < n ∧ less (a (l + 1)) (a l) = true then l + 1 else l
    if less (a smallest) (a idx) = true then
      down less cb n (swap cb a idx smallest) smallest true
    else (a, moved)
termination_by n - idx
decreasing_by
  rename_i hlt
  simp only [smallest, l] at *
  split <;> omega

variable (less : T → T → Bool) (cb : Option (Nat → Nat → (Nat → T) → (Nat → T)))

/-- One iteration of `Push`'s loop: append `x` and sift it up. -/
def push1 (s : St T) (x : T) : St T :=
  let b : Nat → T := fun k => if k = s.n then x else s.a k
  ⟨s.n + 1, up less cb b s.n⟩

/-- `Push(items...)`: append the items one at a time, sifting each up. -/
def push (s : St T) (xs : List T) : St T :=
  xs.foldl (push1 less cb) s

/-- `Pop`: swap root and last slot, truncate, sift the new root down;
returns `none` on the empty container. -/
def pop (s : St T) : Option T × St T :=
  if s.n = 0 then (none, s)
  else
    let last := s.n - 1
    let b := swap cb s.a 0 last
    let item := b last
    if last > 0 then (some item, ⟨last, (down less cb last b 0 false).1⟩)
    else (some item, ⟨last, b⟩)

/-- `Peek`: the root, without mutation. -/
def peek (s : St T) : Option T :=
  if s.n = 0 then none else some (s.a 0)

/-- `Fix(i)`: bounds-check, then sift down, else sift up. -/
def fix (s : St T) (i : Int) : St T :=
  if i < 0 ∨ (s.n : Int) ≤ i then s
  else
    let j := i.toNat
    match down less cb s.n s.a j false with
    | (b, true) => ⟨s.n, b⟩
    | (b, false) => ⟨s.n, up less cb b j⟩

/-- `RemoveAt(i)`: bounds-check; swap slot `i` with the last slot (unless it
is the last), truncate, then restore the invariant at `i` as `Fix` does. -/
def removeAt (s : St T) (i : Int) : Option T × St T :=
  if i < 0 ∨ (s.n : Int) ≤ i then (none, s)
  else
    let j := i.toNat
    let last := s.n - 1
    let b := if j ≠ last then swap cb s.a j last else s.a
    let item := b last
    if j < last then
      match down less cb last b j false with
      | (c, true) => (some item, ⟨last, c⟩)
      | (c, false) => (some item, ⟨last, up less cb c j⟩)
    else (some item, ⟨last, b⟩)

/-- `UpdateAt(i, x)`: bounds-check, overwrite slot `i`, restore as `Fix`. -/
def updateAt (s : St T) (i : Int) (x : T) : Bool × St T :=
  if i < 0 ∨ (s.n : Int) ≤ i then (false, s)
  else
    let j := i.toNat
    let b : Nat → T := fun k => if k = j then x else s.a k
    match down less cb s.n b j false with
    | (c, true) => (true, ⟨s.n, c⟩)
    | (c, false) => (true, ⟨s.n, up less cb c j⟩)

/-- The heap invariant of the spec: no non-root slot strictly outranks its
parent. -/
def heapInvA (n : Nat) (a : Nat → T) : Prop :=
  ∀ i, i < n → 0 < i → less (a i) (a ((i - 1) / 2)) = false

/-- The heap invariant, on a container state. -/
def heapInv (s : St T) : Prop := heapInvA less s.n s.a

instance (n : Nat) (a : Nat → T) : Decidable (heapInvA less n a) := by
  unfold heapInvA
  infer_instance

instance (s : St T) : Decidable (heapInv less s) := by
  unfold heapInv
  infer_instance

/-!
## Heap-invariant preservation (comparator a strict weak ordering, no
`onSwap` callback — i.e. `CorePriorityQueue`, and the indexed variants
constructed with a `nil` callback)
-/

section HeapProofs

variable {T : Type} {less : T → T → Bool}

theorem swap_none_apply (a : Nat → T) (i j k : Nat) :
    swap none a i j k = if k = i then a j else if k = j then a i else a k := by
  unfold swap
  by_cases hij : i = j
  · subst hij
    by_cases hk : k = i <;> simp [hk]
  · simp [hij]

/-- Invariant of the `up` loop: every non-root slot other than `idx`
respects its parent, and (when `idx` is not the root) the children of `idx`
already respect `idx`'s parent. -/
def UpInv (less : T → T → Bool) (n : Nat) (a : Nat → T) (idx : Nat) : Prop :=
  (∀ j, j < n → 0 < j → j ≠ idx → less (a j) (a ((j - 1) / 2)) = false) ∧
  (0 < idx → ∀ c, c < n → 0 < c → (c - 1) / 2 = idx →
    less (a c) (a ((idx - 1) / 2)) = false)

/-- Invariant of the `down` loop: every non-root slot whose parent is not
`idx` (and which is not `idx` itself) respects its parent, and (when `idx`
is not the root) the children of `idx` respect `idx`'s parent. -/
def DownInv (less : T → T → Bool) (n : Nat) (a : Nat → T) (idx : Nat) : Prop :=
  (∀ j, j < n → 0 < j → (j - 1) / 2 ≠ idx → j ≠ idx →
    less (a j) (a ((j - 1) / 2)) = false) ∧
  (0 < idx → ∀ c, c < n → 0 < c → (c - 1) / 2 = idx →
    less (a c) (a ((idx - 1) / 2)) = false)

theorem swap_none_left (a : Nat → T) (i j : Nat) : swap none a i j i = a j := by
  rw [swap_none_apply, if_pos rfl]

theorem swap_none_right (a : Nat → T) (i j : Nat) : swap none a i j j = a i := by
  rw [swap_none_apply]
  by_cases h : j = i
  · rw [if_pos h, h]
  · rw [if_neg h, if_pos rfl]

theorem swap_none_other (a : Nat → T) {i j k : Nat} (hki : k ≠ i)
    (hkj : k ≠ j) : swap none a i j k = a k := by
  rw [swap_none_apply, if_neg hki, if_neg hkj]

theorem upInv_swap_step (hs : StrictWeakOrder less) {n : Nat} {a : Nat → T}
    {idx : Nat} (hidx0 : idx ≠ 0) (hidxn : idx < n)
    (hinv : UpInv less n a idx)
    (hlt : less (a idx) (a ((idx - 1) / 2)) = true) :
    UpInv less n (swap none a idx ((idx - 1) / 2)) ((idx - 1) / 2) := by
  have hpidx : (idx - 1) / 2 < idx := by omega
  constructor
  · intro j hj hj0 hjp
    by_cases hjidx : j = idx
    · subst hjidx
      rw [swap_none_left, swap_none_right]
      exact hs.asymm hlt
    · by_cases hjchild : (j - 1) / 2 = idx
      · -- j is a child of idx: the grandparent condition gives the new edge
        rw [swap_none_other a hjidx (by omega), hjchild, swap_none_left]
        exact hinv.2 (by omega) j hj hj0 hjchild
      · by_cases hjsib : (j - 1) / 2 = (idx - 1) / 2
        · -- j is another child of idx's parent
          rw [swap_none_other a hjidx (by omega), hjsib, swap_none_right]
          have hjold : less (a j) (a ((idx - 1) / 2)) = false := by
            have := hinv.1 j hj hj0 hjidx
            rwa [hjsib] at this
          exact hs.not_lt_left hlt hjold
        · rw [swap_none_other a hjidx hjp, swap_none_other a hjchild hjsib]
          exact hinv.1 j hj hj0 hjidx
  · intro hp0 c hc hc0 hcp
    have hcgt : (idx - 1) / 2 < c := by omega
    rw [swap_none_other a (i := idx) (j := (idx - 1) / 2)
      (k := ((idx - 1) / 2 - 1) / 2) (by omega) (by omega)]
    by_cases hcidx : c = idx
    · rw [hcidx, swap_none_left]
      exact hinv.1 ((idx - 1) / 2) (by omega) hp0 (by omega)
    · rw [swap_none_other a hcidx (by omega)]
      have h1 : less (a c) (a ((idx - 1) / 2)) = false := by
        have := hinv.1 c hc hc0 hcidx
        rwa [hcp] at this
      have h2 : less (a ((idx - 1) / 2)) (a (((idx - 1) / 2 - 1) / 2)) = false :=
        hinv.1 ((idx - 1) / 2) (by omega) hp0 (by omega)
      exact hs.negTrans _ _ _ h1 h2

/-- `up` restores the heap invariant from `UpInv`. -/
theorem up_restore (hs : StrictWeakOrder less) {n : Nat} :
    ∀ idx a, idx < n → UpInv less n a idx →
      heapInvA less n (up less none a idx) := by
  intro idx
  induction idx using Nat.strong_induction_on with
  | _ idx IH =>
    intro a hn hinv
    rw [up]
    by_cases h0 : idx = 0
    · rw [dif_pos h0]
      intro j hj hj0
      exact hinv.1 j hj hj0 (by omega)
    · rw [dif_neg h0]
      simp only []
      by_cases hlt : less (a idx) (a ((idx - 1) / 2)) = true
      · rw [if_pos hlt]
        exact IH ((idx - 1) / 2) (by omega) _ (by omega)
          (upInv_swap_step hs h0 hn hinv hlt)
      · rw [if_neg hlt]
        intro j hj hj0
        by_cases hj' : j = idx
        · subst hj'
          cases h : less (a j) (a ((j - 1) / 2)) with
          | false => rfl
          | true => exact absurd h hlt
        · exact hinv.1 j hj hj0 hj'

/-- Unfolding equation for `down` (with the `l` and `smallest` lets
expanded). -/
theorem down_eq (cb : Option (Nat → Nat → (Nat → T) → (Nat → T)))
    (n : Nat) (a : Nat → T) (idx : Nat) (moved : Bool) :
    down less cb n a idx moved =
      if n ≤ 2 * idx + 1 then (a, moved)
      else
        if less (a (if 2 * idx + 2 < n ∧ less (a (2 * idx + 2)) (a (2 * idx + 1)) = true
            then 2 * idx + 2 else 2 * idx + 1)) (a idx) = true then
          down less cb n
            (swap cb a idx (if 2 * idx + 2 < n ∧ less (a (2 * idx + 2)) (a (2 * idx + 1)) = true
              then 2 * idx + 2 else 2 * idx + 1))
            (if 2 * idx + 2 < n ∧ less (a (2 * idx + 2)) (a (2 * idx + 1)) = true
              then 2 * idx + 2 else 2 * idx + 1) true
        else (a, moved) := by
  rw [down]
  norm_num

/-- Once `moved` is `true` it stays `true`. -/
theorem down_moved {n : Nat} : ∀ fuel idx a, n - idx ≤ fuel →
    (down less none n a idx true).2 = true := by
  intro fuel
  induction fuel with
  | zero =>
    intro idx a hf
    rw [down_eq, if_pos (by omega)]
  | succ fuel IH =>
    intro idx a hf
    rw [down_eq]
    by_cases hl : n ≤ 2 * idx + 1
    · rw [if_pos hl]
    · rw [if_neg hl]
      by_cases hcond : 2 * idx + 2 < n ∧ less (a (2 * idx + 2)) (a (2 * idx + 1)) = true
      · rw [if_pos hcond]
        split
        · exact IH _ _ (by omega)
        · rfl
      · rw [if_neg hcond]
        split
        · exact IH _ _ (by omega)
        · rfl

theorem downInv_swap_step (hs : StrictWeakOrder less) {n : Nat} {a : Nat → T}
    {idx sm : Nat} (hidxn : idx < n) (hsmn : sm < n)
    (hinv : DownInv less n a idx)
    (hchoice : (sm = 2 * idx + 2 ∧ 2 * idx + 2 < n ∧
        less (a (2 * idx + 2)) (a (2 * idx + 1)) = true) ∨
      (sm = 2 * idx + 1 ∧
        (2 * idx + 2 < n → less (a (2 * idx + 2)) (a (2 * idx + 1)) = false)))
    (hswap : less (a sm) (a idx) = true) :
    DownInv less n (swap none a idx sm) sm ∧
      less (swap none a idx sm sm) (swap none a idx sm ((sm - 1) / 2)) = false := by
  have hsmgt : idx < sm := by rcases hchoice with ⟨h, _⟩ | ⟨h, _⟩ <;> omega
  have hsmpar : (sm - 1) / 2 = idx := by
    rcases hchoice with ⟨h, _⟩ | ⟨h, _⟩ <;> omega
  have hparfact : ∀ k : Nat, 0 < k → (k - 1) / 2 < k := by intro k hk; omega
  refine ⟨⟨?_, ?_⟩, ?_⟩
  · intro j hj hj0 hjpar hjne
    by_cases hji : j = idx
    · -- the new edge from old position idx up to its parent
      subst hji
      rw [swap_none_left, swap_none_other a (by omega) (by omega)]
      exact hinv.2 hj0 sm hsmn (by omega) hsmpar
    · by_cases hjc : (j - 1) / 2 = idx
      · -- j is the other child of idx
        rw [swap_none_other a hji hjne, hjc, swap_none_left]
        rcases hchoice with ⟨hsm, _, hlt⟩ | ⟨hsm, hother⟩
        · have : j = 2 * idx + 1 := by omega
          subst this
          rw [hsm]
          exact hs.asymm hlt
        · have : j = 2 * idx + 2 := by omega
          subst this
          rw [hsm]
          exact hother (by omega)
      · rw [swap_none_other a hji hjne, swap_none_other a hjc hjpar]
        exact hinv.1 j hj hj0 hjc hji
  · intro _ c hc hc0 hcpar
    rw [swap_none_other a (by omega) (by omega), hsmpar, swap_none_left]
    have := hinv.1 c hc hc0 (by omega) (by omega)
    rwa [hcpar] at this
  · rw [swap_none_right, hsmpar, swap_none_left]
    exact hs.asymm hswap

/-- Full specification of the `down` loop under `DownInv`: if it reports a
move the heap invariant is fully restored; if not, the array is untouched
and both children of `idx` respect `idx`. -/
theorem down_ok (hs : StrictWeakOrder less) {n : Nat} :
    ∀ fuel idx a (moved : Bool), n - idx ≤ fuel → idx < n →
      DownInv less n a idx →
      (moved = true → idx = 0 ∨ less (a idx) (a ((idx - 1) / 2)) = false) →
      ((down less none n a idx moved).2 = true →
        heapInvA less n (down less none n a idx moved).1) ∧
      ((down less none n a idx moved).2 = false → moved = false ∧
        (down less none n a idx moved).1 = a ∧
        ∀ c, c < n → 0 < c → (c - 1) / 2 = idx → less (a c) (a idx) = false) := by
  intro fuel
  induction fuel with
  | zero => intro idx a moved hf hidx _ _; omega
  | succ fuel IH =>
    intro idx a moved hf hidx hinv hpar
    rw [down_eq]
    by_cases hl : n ≤ 2 * idx + 1
    · -- no children: the loop exits immediately
      rw [if_pos hl]
      constructor
      · intro hmv
        intro j hj hj0
        by_cases hji : j = idx
        · subst hji
          rcases hpar hmv with h0 | hedge
          · omega
          · exact hedge
        · exact hinv.1 j hj hj0 (by omega) hji
      · intro hmv
        exact ⟨hmv, rfl, fun c hc _ hcp => by omega⟩
    · rw [if_neg hl]
      by_cases hcond : 2 * idx + 2 < n ∧ less (a (2 * idx + 2)) (a (2 * idx + 1)) = true
      · rw [if_pos hcond]
        have hchoice : (2 * idx + 2 = 2 * idx + 2 ∧ 2 * idx + 2 < n ∧
            less (a (2 * idx + 2)) (a (2 * idx + 1)) = true) ∨
            (2 * idx + 2 = 2 * idx + 1 ∧ (2 * idx + 2 < n →
              less (a (2 * idx + 2)) (a (2 * idx + 1)) = false)) :=
          Or.inl ⟨rfl, hcond⟩
        by_cases hsw : less (a (2 * idx + 2)) (a idx) = true
        · rw [if_pos hsw]
          have hstep := downInv_swap_step hs hidx (by omega) hinv hchoice hsw
          have hres := IH (2 * idx + 2) (swap none a idx (2 * idx + 2)) true
            (by omega) (by omega) hstep.1 (fun _ => Or.inr hstep.2)
          constructor
          · exact hres.1
          · intro hmv
            have hdm := @down_moved T less n fuel (2 * idx + 2)
              (swap none a idx (2 * idx + 2)) (by omega)
            rw [hmv] at hdm
            simp at hdm
        · rw [if_neg hsw]
          have hsw' : less (a (2 * idx + 2)) (a idx) = false := by
            cases h : less (a (2 * idx + 2)) (a idx) with
            | false => rfl
            | true => exact absurd h hsw
          -- stop: both children respect idx
          have hchildren : ∀ c, c < n → 0 < c → (c - 1) / 2 = idx →
              less (a c) (a idx) = false := by
            intro c hc hc0 hcp
            have : c = 2 * idx + 1 ∨ c = 2 * idx + 2 := by omega
            rcases this with h | h
            · subst h
              exact hs.not_lt_right hcond.2 hsw'
            · subst h
              exact hsw'
          constructor
          · intro hmv
            intro j hj hj0
            by_cases hji : j = idx
            · subst hji
              rcases hpar hmv with h0 | hedge
              · omega
              · exact hedge
            · by_cases hjc : (j - 1) / 2 = idx
              · rw [hjc]
                exact hchildren j hj hj0 hjc
              · exact hinv.1 j hj hj0 hjc hji
          · intro hmv
            exact ⟨hmv, rfl, hchildren⟩
      · rw [if_neg hcond]
        have hother : 2 * idx + 2 < n → less (a (2 * idx + 2)) (a (2 * idx + 1)) = false := by
          intro h2
          cases h : less (a (2 * idx + 2)) (a (2 * idx + 1)) with
          | false => rfl
          | true => exact absurd ⟨h2, h⟩ hcond
        have hchoice : (2 * idx + 1 = 2 * idx + 2 ∧ 2 * idx + 2 < n ∧
            less (a (2 * idx + 2)) (a (2 * idx + 1)) = true) ∨
            (2 * idx + 1 = 2 * idx + 1 ∧ (2 * idx + 2 < n →
              less (a (2 * idx + 2)) (a (2 * idx + 1)) = false)) :=
          Or.inr ⟨rfl, hother⟩
        by_cases hsw : less (a (2 * idx + 1)) (a idx) = true
        · rw [if_pos hsw]
          have hstep := downInv_swap_step hs hidx (by omega) hinv hchoice hsw
          have hres := IH (2 * idx + 1) (swap none a idx (2 * idx + 1)) true
            (by omega) (by omega) hstep.1 (fun _ => Or.inr hstep.2)
          constructor
          · exact hres.1
          · intro hmv
            have hdm := @down_moved T less n fuel (2 * idx + 1)
              (swap none a idx (2 * idx + 1)) (by omega)
            rw [hmv] at hdm
            simp at hdm
        · rw [if_neg hsw]
          have hsw' : less (a (2 * idx + 1)) (a idx) = false := by
            cases h : less (a (2 * idx + 1)) (a idx) with
            | false => rfl
            | true => exact absurd h hsw
          have hchildren : ∀ c, c < n → 0 < c → (c - 1) / 2 = idx →
              less (a c) (a idx) = false := by
            intro c hc hc0 hcp
            have : c = 2 * idx + 1 ∨ c = 2 * idx + 2 := by omega
            rcases this with h | h
            · subst h
              exact hsw'
            · subst h
              exact hs.negTrans _ _ _ (hother (by omega)) hsw'
          constructor
          · intro hmv
            intro j hj hj0
            by_cases hji : j = idx
            · subst hji
              rcases hpar hmv with h0 | hedge
              · omega
              · exact hedge
            · by_cases hjc : (j - 1) / 2 = idx
              · rw [hjc]
                exact hchildren j hj hj0 hjc
              · exact hinv.1 j hj hj0 hjc hji
          · intro hmv
            exact ⟨hmv, rfl, hchildren⟩

theorem DownInv.of_heapInv (hs : StrictWeakOrder less) {n : Nat} {a : Nat → T}
    {idx : Nat} (h : heapInvA less n a) (hidx : idx < n) :
    DownInv less n a idx := by
  constructor
  · intro j hj hj0 _ _
    exact h j hj hj0
  · intro hidx0 c hc hc0 hcp
    have h1 : less (a c) (a idx) = false := by
      have := h c hc hc0
      rwa [hcp] at this
    have h2 : less (a idx) (a ((idx - 1) / 2)) = false := h idx hidx hidx0
    exact hs.negTrans _ _ _ h1 h2

theorem down_true (hs : StrictWeakOrder less) {n : Nat} {a : Nat → T}
    {idx : Nat} (hidx : idx < n) (hinv : DownInv less n a idx) {b : Nat → T}
    (hd : down less none n a idx false = (b, true)) : heapInvA less n b := by
  have hok := down_ok hs (n - idx) idx a false le_rfl hidx hinv (by simp)
  rw [hd] at hok
  exact hok.1 rfl

theorem down_false_up (hs : StrictWeakOrder less) {n : Nat} {a : Nat → T}
    {idx : Nat} (hidx : idx < n) (hinv : DownInv less n a idx) {b : Nat → T}
    (hd : down less none n a idx false = (b, false)) :
    heapInvA less n (up less none b idx) := by
  have hok := down_ok hs (n - idx) idx a false le_rfl hidx hinv (by simp)
  rw [hd] at hok
  obtain ⟨-, hba, hch⟩ := hok.2 rfl
  have hba' : b = a := hba
  subst hba'
  apply up_restore hs idx b hidx
  constructor
  · intro j hj hj0 hji
    by_cases hjc : (j - 1) / 2 = idx
    · rw [hjc]
      exact hch j hj hj0 hjc
    · exact hinv.1 j hj hj0 hjc hji
  · exact hinv.2

theorem down_false_root (hs : StrictWeakOrder less) {n : Nat} {a : Nat → T}
    (h0 : 0 < n) (hinv : DownInv less n a 0) {b : Nat → T}
    (hd : down less none n a 0 false = (b, false)) : heapInvA less n b := by
  have hok := down_ok hs (n - 0) 0 a false le_rfl h0 hinv (by simp)
  rw [hd] at hok
  obtain ⟨-, hba, hch⟩ := hok.2 rfl
  have hba' : b = a := hba
  subst hba'
  intro j hj hj0
  by_cases hjc : (j - 1) / 2 = 0
  · rw [hjc]
    exact hch j hj hj0 hjc
  · exact hinv.1 j hj hj0 hjc (by omega)

/-- `Push` of a single element preserves the heap invariant. -/
theorem push1_heapInv (hs : StrictWeakOrder less) (s : St T) (x : T)
    (h : heapInv less s) : heapInv less (push1 less none s x) := by
  unfold push1 heapInv heapInvA
  simp only []
  apply up_restore hs s.n _ (by omega)
  constructor
  · intro j hj hj0 hji
    have hjn : j < s.n := by omega
    have hpn : (j - 1) / 2 ≠ s.n := by omega
    simp only [if_neg hji, if_neg hpn]
    exact h j hjn hj0
  · intro h0 c hc hc0 hcp
    omega

/-- `Push(items...)` preserves the heap invariant. -/
theorem push_heapInv (hs : StrictWeakOrder less) (s : St T) (xs : List T)
    (h : heapInv less s) : heapInv less (push less none s xs) := by
  induction xs generalizing s with
  | nil => exact h
  | cons x xs IH =>
    exact IH (push1 less none s x) (push1_heapInv hs s x h)

/-- `Pop` preserves the heap invariant. -/
theorem pop_heapInv (hs : StrictWeakOrder less) (s : St T)
    (h : heapInv less s) : heapInv less (pop less none s).2 := by
  unfold pop
  by_cases h0 : s.n = 0
  · rw [if_pos h0]
    exact h
  · rw [if_neg h0]
    simp only []
    by_cases h1 : s.n - 1 > 0
    · rw [if_pos h1]
      have hbinv : DownInv less (s.n - 1) (swap none s.a 0 (s.n - 1)) 0 := by
        constructor
        · intro j hj hj0 hjp hjne
          rw [swap_none_other s.a (by omega) (by omega),
            swap_none_other s.a (by omega) (by omega)]
          exact h j (by omega) hj0
        · intro h0'
          omega
      cases hd : down less none (s.n - 1) (swap none s.a 0 (s.n - 1)) 0 false with
      | mk c mv =>
        cases mv with
        | true => exact down_true hs (by omega) hbinv hd
        | false => exact down_false_root hs (by omega) hbinv hd
    · rw [if_neg h1]
      unfold heapInv
      dsimp only
      intro j hj hj0
      omega

/-- `Fix(i)` preserves the heap invariant. -/
theorem fix_heapInv (hs : StrictWeakOrder less) (s : St T) (i : Int)
    (h : heapInv less s) : heapInv less (fix less none s i) := by
  unfold fix
  by_cases hb : i < 0 ∨ (s.n : Int) ≤ i
  · rw [if_pos hb]
    exact h
  · rw [if_neg hb]
    simp only []
    have hj : i.toNat < s.n := by omega
    have hinv := DownInv.of_heapInv hs h hj
    cases hd : down less none s.n s.a i.toNat false with
    | mk c mv =>
      cases mv with
      | true => exact down_true hs hj hinv hd
      | false => exact down_false_up hs hj hinv hd

/-- `UpdateAt(i, x)` preserves the heap invariant. -/
theorem updateAt_heapInv (hs : StrictWeakOrder less) (s : St T) (i : Int)
    (x : T) (h : heapInv less s) : heapInv less (updateAt less none s i x).2 := by
  unfold updateAt
  by_cases hb : i < 0 ∨ (s.n : Int) ≤ i
  · rw [if_pos hb]
    exact h
  · rw [if_neg hb]
    simp only []
    have hj : i.toNat < s.n := by omega
    have hinv : DownInv less s.n
        (fun k => if k = i.toNat then x else s.a k) i.toNat := by
      constructor
      · intro j hj' hj0 hjp hjne
        simp only [if_neg hjne, if_neg hjp]
        exact h j hj' hj0
      · intro h0 c hc hc0 hcp
        have hcgt : i.toNat < c := by omega
        have e1 : c ≠ i.toNat := by omega
        have e2 : (i.toNat - 1) / 2 ≠ i.toNat := by omega
        simp only [if_neg e1, if_neg e2]
        have h1 : less (s.a c) (s.a i.toNat) = false := by
          have := h c hc hc0
          rwa [hcp] at this
        have h2 : less (s.a i.toNat) (s.a ((i.toNat - 1) / 2)) = false :=
          h i.toNat hj h0
        exact hs.negTrans _ _ _ h1 h2
    cases hd : down less none s.n
        (fun k => if k = i.toNat then x else s.a k) i.toNat false with
    | mk c mv =>
      cases mv with
      | true => exact down_true hs hj hinv hd
      | false => exact down_false_up hs hj hinv hd

/-- `RemoveAt(i)` preserves the heap invariant. -/
theorem removeAt_heapInv (hs : StrictWeakOrder less) (s : St T) (i : Int)
    (h : heapInv less s) : heapInv less (removeAt less none s i).2 := by
  unfold removeAt
  by_cases hb : i < 0 ∨ (s.n : Int) ≤ i
  · rw [if_pos hb]
    exact h
  · rw [if_neg hb]
    simp only []
    have hj : i.toNat < s.n := by omega
    by_cases hlast : i.toNat < s.n - 1
    · rw [if_pos hlast]
      rw [if_pos (by omega : i.toNat ≠ s.n - 1)]
      have hinv : DownInv less (s.n - 1) (swap none s.a i.toNat (s.n - 1))
          i.toNat := by
        constructor
        · intro j hj' hj0 hjp hjne
          rw [swap_none_other s.a hjne (by omega),
            swap_none_other s.a hjp (by omega)]
          exact h j (by omega) hj0
        · intro h0 c hc hc0 hcp
          have hcgt : i.toNat < c := by omega
          rw [swap_none_other s.a (by omega) (by omega),
            swap_none_other s.a (by omega) (by omega)]
          have h1 : less (s.a c) (s.a i.toNat) = false := by
            have := h c (by omega) hc0
            rwa [hcp] at this
          have h2 : less (s.a i.toNat) (s.a ((i.toNat - 1) / 2)) = false :=
            h i.toNat hj h0
          exact hs.negTrans _ _ _ h1 h2
      cases hd : down less none (s.n - 1) (swap none s.a i.toNat (s.n - 1))
          i.toNat false with
      | mk c mv =>
        cases mv with
        | true =>
          have := down_true hs (by omega) hinv hd
          unfold heapInv
          simp only []
          exact this
        | false =>
          have := down_false_up hs (by omega) hinv hd
          unfold heapInv
          simp only []
          exact this
    · rw [if_neg hlast]
      by_cases heq : i.toNat ≠ s.n - 1
      · exfalso
        omega
      · rw [if_neg heq]
        unfold heapInv
        dsimp only
        intro j hj hj0
        exact h j (by omega) hj0

end HeapProofs

/-!
## Operation sequences on a priority queue
-/

/-- The mutating API of the priority-queue family: `Push`, `Pop`, `Fix`,
`RemoveAt`, `UpdateAt`. -/
inductive PQOp (T : Type) where
  | pushOp : List T → PQOp T
  | popOp : PQOp T
  | fixOp : Int → PQOp T
  | removeAtOp : Int → PQOp T
  | updateAtOp : Int → T → PQOp T

variable (less : T → T → Bool) (cb : Option (Nat → Nat → (Nat → T) → (Nat → T)))

/-- Apply one mutating priority-queue operation (discarding its output). -/
def applyPQOp (s : St T) : PQOp T → St T
  | .pushOp xs => push less cb s xs
  | .popOp => (pop less cb s).2
  | .fixOp i => fix less cb s i
  | .removeAtOp i => (removeAt less cb s i).2
  | .updateAtOp i x => (updateAt less cb s i x).2

/-- Run a sequence of mutating priority-queue operations. -/
def runPQOps (s : St T) (ops : List (PQOp T)) : St T :=
  ops.foldl (applyPQOp less cb) s

section HeapProofs2

variable {T : Type} {less : T → T → Bool}

theorem applyPQOp_heapInv (hs : StrictWeakOrder less) (s : St T)
    (op : PQOp T) (h : heapInv less s) :
    heapInv less (applyPQOp less none s op) := by
  cases op with
  | pushOp xs => exact push_heapInv hs s xs h
  | popOp => exact pop_heapInv hs s h
  | fixOp i => exact fix_heapInv hs s i h
  | removeAtOp i => exact removeAt_heapInv hs s i h
  | updateAtOp i x => exact updateAt_heapInv hs s i x h

theorem runPQOps_heapInv (hs : StrictWeakOrder less) (ops : List (PQOp T))
    (s : St T) (h : heapInv less s) :
    heapInv less (runPQOps less none s ops) := by
  induction ops generalizing s with
  | nil => exact h
  | cons op ops IH => exact IH _ (applyPQOp_heapInv hs s op h)

/-!
## Minimality of the root, and `Pop` sequences
-/

/-- Under the heap invariant, no element strictly outranks the root. -/
theorem root_min (hs : StrictWeakOrder less) {n : Nat} {a : Nat → T}
    (h : heapInvA less n a) : ∀ j, j < n → less (a j) (a 0) = false := by
  intro j
  induction j using Nat.strong_induction_on with
  | _ j IH =>
    intro hj
    by_cases hj0 : j = 0
    · subst hj0
      exact hs.irrefl _
    · have h1 : less (a j) (a ((j - 1) / 2)) = false := h j hj (by omega)
      have h2 : less (a ((j - 1) / 2)) (a 0) = false :=
        IH ((j - 1) / 2) (by omega) (by omega)
      exact hs.negTrans _ _ _ h1 h2

/-- A within-range swap preserves pointwise predicates on the live slots. -/
theorem swap_pred {P : T → Prop} {n : Nat} {a : Nat → T} {i j : Nat}
    (hi : i < n) (hj : j < n) (h : ∀ k, k < n → P (a k)) :
    ∀ k, k < n → P (swap none a i j k) := by
  intro k hk
  rw [swap_none_apply]
  by_cases hki : k = i
  · rw [if_pos hki]
    exact h j hj
  · rw [if_neg hki]
    by_cases hkj : k = j
    · rw [if_pos hkj]
      exact h i hi
    · rw [if_neg hkj]
      exact h k hk

/-- The `down` loop preserves pointwise predicates on the live slots. -/
theorem down_pred {P : T → Prop} {n : Nat} : ∀ fuel idx a moved,
    n - idx ≤ fuel → (∀ k, k < n → P (a k)) →
    ∀ k, k < n → P ((down less none n a idx moved).1 k) := by
  intro fuel
  induction fuel with
  | zero =>
    intro idx a moved hf h k hk
    rw [down_eq, if_pos (by omega)]
    exact h k hk
  | succ fuel IH =>
    intro idx a moved hf h k hk
    rw [down_eq]
    by_cases hl : n ≤ 2 * idx + 1
    · rw [if_pos hl]
      exact h k hk
    · rw [if_neg hl]
      by_cases hcond : 2 * idx + 2 < n ∧ less (a (2 * idx + 2)) (a (2 * idx + 1)) = true
      · rw [if_pos hcond]
        split
        · exact IH _ _ _ (by omega) (swap_pred (by omega) (by omega) h) k hk
        · exact h k hk
      · rw [if_neg hcond]
        split
        · exact IH _ _ _ (by omega) (swap_pred (by omega) (by omega) h) k hk
        · exact h k hk

/-- Functional specification of a successful `Pop`: it returns the root, the
size shrinks by one, the invariant is preserved, and every element of the
shrunken container already lived in the original one (stated through an
arbitrary pointwise predicate). -/
theorem pop_spec (hs : StrictWeakOrder less) (s : St T)
    (h : heapInv less s) (hn : 0 < s.n) :
    (pop less none s).1 = some (s.a 0) ∧
    (pop less none s).2.n = s.n - 1 ∧
    heapInv less (pop less none s).2 ∧
    ∀ (P : T → Prop), (∀ j, j < s.n → P (s.a j)) →
      ∀ k, k < s.n - 1 → P ((pop less none s).2.a k) := by
  have hn0 : s.n ≠ 0 := by omega
  refine ⟨?_, ?_, pop_heapInv hs s h, ?_⟩
  · unfold pop
    rw [if_neg hn0]
    simp only []
    rw [swap_none_right]
    split <;> rfl
  · unfold pop
    rw [if_neg hn0]
    simp only []
    split <;> rfl
  · intro P hP k hk
    unfold pop
    rw [if_neg hn0]
    simp only []
    have hswap : ∀ m, m < s.n → P (swap none s.a 0 (s.n - 1) m) :=
      swap_pred (by omega) (by omega) hP
    by_cases h1 : s.n - 1 > 0
    · rw [if_pos h1]
      exact down_pred (s.n - 1) 0 _ false (by omega)
        (fun m hm => hswap m (by omega)) k hk
    · rw [if_neg h1]
      exact hswap k (by omega)

variable (less : T → T → Bool) (cb : Option (Nat → Nat → (Nat → T) → (Nat → T))) in
/-- `k` successive `Pop` calls, collecting each result. -/
def popN (s : St T) : Nat → List (Option T) × St T
  | 0 => ([], s)
  | Nat.succ k =>
    let r := pop less cb s
    let rest := popN r.2 k
    (r.1 :: rest.1, rest.2)

/-- Specification of `k` successive pops from a valid heap: the invariant is
kept, every pop within the size succeeds, the successful results are
pairwise non-decreasing under `less`, and pointwise predicates carry over to
both the popped values and the remaining elements. -/
theorem popN_spec (hs : StrictWeakOrder less) : ∀ (k : Nat) (s : St T),
    heapInv less s →
    heapInv less (popN less none s k).2 ∧
    (popN less none s k).2.n = s.n - k ∧
    (k ≤ s.n → ∀ o ∈ (popN less none s k).1, o.isSome = true) ∧
    List.Pairwise (fun x y => less y x = false)
      ((popN less none s k).1.filterMap id) ∧
    (∀ (P : T → Prop), (∀ j, j < s.n → P (s.a j)) →
      (∀ x ∈ (popN less none s k).1.filterMap id, P x) ∧
      (∀ j, j < (popN less none s k).2.n → P ((popN less none s k).2.a j))) := by
  intro k
  induction k with
  | zero =>
    intro s h
    refine ⟨h, by simp [popN], by simp [popN], by simp [popN], ?_⟩
    intro P hP
    simp [popN]
    exact hP
  | succ k IH =>
    intro s h
    by_cases hn : s.n = 0
    · -- pop on the empty container: `none`, state unchanged
      have hpop : pop less none s = (none, s) := by
        unfold pop
        rw [if_pos hn]
      obtain ⟨ih1, ih2, ih3, ih4, ih5⟩ := IH s h
      refine ⟨?_, ?_, ?_, ?_, ?_⟩
      · simp only [popN, hpop]
        exact ih1
      · simp only [popN, hpop]
        omega
      · intro hk
        omega
      · simp only [popN, hpop, List.filterMap_cons]
        exact ih4
      · intro P hP
        simp only [popN, hpop, List.filterMap_cons]
        exact ih5 P hP
    · obtain ⟨hp1, hp2, hp3, hp4⟩ := pop_spec hs s h (by omega)
      obtain ⟨ih1, ih2, ih3, ih4, ih5⟩ := IH (pop less none s).2 hp3
      refine ⟨?_, ?_, ?_, ?_, ?_⟩
      · simp only [popN]
        exact ih1
      · simp only [popN]
        omega
      · intro hk o ho
        simp only [popN, List.mem_cons] at ho
        rcases ho with ho | ho
        · subst ho
          rw [hp1]
          rfl
        · exact ih3 (by omega) o ho
      · simp only [popN, hp1, List.filterMap_cons]
        refine List.Pairwise.cons ?_ ih4
        intro y hy
        -- every later-popped element was an element of the popped state,
        -- hence does not outrank the old root
        have hroot : ∀ j, j < (pop less none s).2.n →
            less ((pop less none s).2.a j) (s.a 0) = false := by
          intro j hj
          exact hp4 (fun v => less v (s.a 0) = false)
            (root_min hs h) j (by omega)
        exact (ih5 (fun v => less v (s.a 0) = false) (by
          intro j hj
          exact hroot j hj)).1 y hy
      · intro P hP
        have hP' : ∀ j, j < (pop less none s).2.n → P ((pop less none s).2.a j) := by
          intro j hj
          exact hp4 P hP j (by omega)
        obtain ⟨hA, hB⟩ := ih5 P hP'
        constructor
        · intro x hx
          simp only [popN, hp1, List.filterMap_cons] at hx
          simp only [id] at hx
          rcases List.mem_cons.mp hx with hx | hx
          · subst hx
            exact hP 0 (by omega)
          · exact hA x hx
        · intro j hj
          simp only [popN] at hj ⊢
          exact hB j hj

end HeapProofs2

/-- The natural-number `<` comparator used in concrete scenarios. -/
def lessNat : Nat → Nat → Bool := fun a b => a < b

theorem lessNat_swo : StrictWeakOrder lessNat := by
  constructor
  · intro x
    simp [lessNat]
  · intro x y z h1 h2
    simp only [lessNat, decide_eq_true_eq] at *
    omega
  · intro x y z h1 h2
    simp only [lessNat, decide_eq_false_iff_not, decide_eq_true_eq] at *
    omega

/-- C1: for every priority queue or heap whose comparator is a strict weak
ordering (and no `onSwap` callback), after any sequence of `Push`, `Pop`,
`Fix`, `RemoveAt` and `UpdateAt` operations starting from the empty
container, the backing array satisfies the heap invariant: no non-root slot
strictly outranks its parent. -/
theorem heap_invariant_all_ops {T : Type} {less : T → T → Bool}
    (hs : StrictWeakOrder less) (z : Nat → T) (ops : List (PQOp T)) :
    heapInv less (runPQOps less none ⟨0, z⟩ ops) := by
  apply runPQOps_heapInv hs ops
  intro j hj hj0
  simp at hj

/-- Witness for C1 at a concrete operation sequence over `Nat`. -/
theorem heap_invariant_all_ops_witness :
    heapInv lessNat (runPQOps lessNat none ⟨0, fun _ => 0⟩
      [PQOp.pushOp [5, 3, 8, 1], PQOp.popOp, PQOp.updateAtOp 0 9,
        PQOp.removeAtOp 1, PQOp.fixOp 0, PQOp.removeAtOp (-1),
        PQOp.popOp]) :=
  heap_invariant_all_ops lessNat_swo (fun _ => 0)
    [PQOp.pushOp [5, 3, 8, 1], PQOp.popOp, PQOp.updateAtOp 0 9,
      PQOp.removeAtOp 1, PQOp.fixOp 0, PQOp.removeAtOp (-1), PQOp.popOp]

/-- C2: for a strict-weak-ordering comparator, pushing `N` items onto the
empty queue and then popping `N` times yields only successful pops, in a
sequence that is non-decreasing under `less` (no later pop outranks an
earlier one); in particular, pushing priorities `[3,1,2]` makes `Peek`
return `1`, three pops return `1,2,3` in order and a fourth returns
not-found. -/
theorem pop_monotonicity_and_scenarioA {T : Type} {less : T → T → Bool}
    (hs : StrictWeakOrder less) (z : Nat → T) (xs : List T) :
    (∀ o ∈ (popN less none (push less none ⟨0, z⟩ xs) xs.length).1,
      o.isSome = true) ∧
    List.Pairwise (fun x y => less y x = false)
      ((popN less none (push less none ⟨0, z⟩ xs) xs.length).1.filterMap id) ∧
    peek (push lessNat none ⟨0, fun _ => 0⟩ [3, 1, 2]) = some 1 ∧
    (popN lessNat none (push lessNat none ⟨0, fun _ => 0⟩ [3, 1, 2]) 4).1 =
      [some 1, some 2, some 3, none] := by
  have hempty : heapInv less (⟨0, z⟩ : St T) := by
    intro j hj hj0
    simp at hj
  have hinv := push_heapInv hs ⟨0, z⟩ xs hempty
  have hn : (push less none ⟨0, z⟩ xs).n = xs.length := by
    have : ∀ (ys : List T) (s : St T), (push less none s ys).n = s.n + ys.length := by
      intro ys
      induction ys with
      | nil => intro s; simp [push]
      | cons y ys IH =>
        intro s
        have := IH (push1 less none s y)
        simp only [push, List.foldl_cons] at *
        rw [this]
        simp [push1]
        omega
    rw [this xs ⟨0, z⟩]
    simp
  obtain ⟨-, -, h3, h4, -⟩ := popN_spec hs xs.length (push less none ⟨0, z⟩ xs) hinv
  refine ⟨h3 (by omega), h4, ?_, ?_⟩
  · simp [push, push1, peek, up, swap, lessNat]
  · simp [push, push1, popN, pop, up, down, swap, lessNat]

/-- Witness for C2 at a concrete push list over `Nat`. -/
theorem pop_monotonicity_and_scenarioA_witness :
    (∀ o ∈ (popN lessNat none (push lessNat none ⟨0, fun _ => 0⟩ [7, 2, 2, 9]) 4).1,
      o.isSome = true) ∧
    List.Pairwise (fun x y => lessNat y x = false)
      ((popN lessNat none (push lessNat none ⟨0, fun _ => 0⟩ [7, 2, 2, 9]) 4).1.filterMap id) ∧
    peek (push lessNat none ⟨0, fun _ => 0⟩ [3, 1, 2]) = some 1 ∧
    (popN lessNat none (push lessNat none ⟨0, fun _ => 0⟩ [3, 1, 2]) 4).1 =
      [some 1, some 2, some 3, none] :=
  pop_monotonicity_and_scenarioA lessNat_swo (fun _ => 0) [7, 2, 2, 9]

/-!
## Element multisets, and the `RemoveAt` specification (C4)
-/

section MultisetProofs

variable {T : Type} {less : T → T → Bool}

/-- The multiset of elements held in the first `n` slots. -/
def toM (n : Nat) (a : Nat → T) : Multiset T := (Multiset.range n).map a

theorem toM_succ (n : Nat) (a : Nat → T) : toM (n + 1) a = a n ::ₘ toM n a := by
  unfold toM
  rw [Multiset.range_succ, Multiset.map_cons]

/-- A swap of two live slots does not change the element multiset. -/
theorem swap_toM {n : Nat} (a : Nat → T) {i j : Nat} (hi : i < n)
    (hj : j < n) : toM n (swap none a i j) = toM n a := by
  by_cases hij : i = j
  · subst hij
    unfold toM
    apply Multiset.map_congr rfl
    intro k hk
    rw [swap_none_apply]
    by_cases hk' : k = i <;> simp [hk']
  · have hmi : i ∈ Multiset.range n := Multiset.mem_range.mpr hi
    have hnd : (Multiset.range n).Nodup := Multiset.nodup_range n
    have hmj : j ∈ (Multiset.range n).erase i := by
      rw [Multiset.mem_erase_of_ne (by omega)]
      exact Multiset.mem_range.mpr hj
    have hdecomp : Multiset.range n =
        i ::ₘ j ::ₘ ((Multiset.range n).erase i).erase j := by
      rw [Multiset.cons_erase hmj, Multiset.cons_erase hmi]
    have hrest : ∀ k ∈ ((Multiset.range n).erase i).erase j,
        k ≠ i ∧ k ≠ j := by
      intro k hk
      constructor
      · intro hki
        subst hki
        exact (Multiset.Nodup.not_mem_erase hnd)
          (Multiset.mem_of_mem_erase hk)
      · intro hkj
        subst hkj
        exact (Multiset.Nodup.not_mem_erase (Multiset.Nodup.erase i hnd)) hk
    unfold toM
    rw [hdecomp]
    rw [Multiset.map_cons, Multiset.map_cons, Multiset.map_cons,
      Multiset.map_cons]
    rw [swap_none_left, swap_none_right]
    rw [Multiset.map_congr rfl (fun k hk => swap_none_other a
      (hrest k hk).1 (hrest k hk).2)]
    rw [Multiset.cons_swap]

/-- The `up` loop does not change the element multiset. -/
theorem up_toM {n : Nat} : ∀ idx (a : Nat → T), idx < n →
    toM n (up less none a idx) = toM n a := by
  intro idx
  induction idx using Nat.strong_induction_on with
  | _ idx IH =>
    intro a hn
    rw [up]
    by_cases h0 : idx = 0
    · rw [dif_pos h0]
    · rw [dif_neg h0]
      simp only []
      by_cases hlt : less (a idx) (a ((idx - 1) / 2)) = true
      · rw [if_pos hlt]
        rw [IH ((idx - 1) / 2) (by omega) _ (by omega)]
        exact swap_toM a hn (by omega)
      · rw [if_neg hlt]

/-- The `down` loop does not change the element multiset. -/
theorem down_toM {n : Nat} : ∀ fuel idx (a : Nat → T) moved,
    n - idx ≤ fuel → toM n ((down less none n a idx moved).1) = toM n a := by
  intro fuel
  induction fuel with
  | zero =>
    intro idx a moved hf
    rw [down_eq, if_pos (by omega)]
  | succ fuel IH =>
    intro idx a moved hf
    rw [down_eq]
    by_cases hl : n ≤ 2 * idx + 1
    · rw [if_pos hl]
    · rw [if_neg hl]
      by_cases hcond : 2 * idx + 2 < n ∧ less (a (2 * idx + 2)) (a (2 * idx + 1)) = true
      · rw [if_pos hcond]
        split
        · rw [IH _ _ _ (by omega)]
          exact swap_toM a (by omega) (by omega)
        · rfl
      · rw [if_neg hcond]
        split
        · rw [IH _ _ _ (by omega)]
          exact swap_toM a (by omega) (by omega)
        · rfl

/-- C4: `RemoveAt(i)` on a valid indexed priority queue: an out-of-bounds
`i` returns `(zero, false)` and leaves the container untouched; an in-bounds
`i` returns the element stored at slot `i` with `found = true`, the
container afterwards holds exactly the previous multiset of elements minus
that element, and the heap invariant holds again. -/
theorem removeAt_spec {T : Type} {less : T → T → Bool}
    (hs : StrictWeakOrder less) (s : St T) (h : heapInv less s) (i : Int) :
    ((i < 0 ∨ (s.n : Int) ≤ i) → removeAt less none s i = (none, s)) ∧
    (¬(i < 0 ∨ (s.n : Int) ≤ i) →
      (removeAt less none s i).1 = some (s.a i.toNat) ∧
      (removeAt less none s i).2.n = s.n - 1 ∧
      toM s.n s.a =
        s.a i.toNat ::ₘ toM (s.n - 1) (removeAt less none s i).2.a ∧
      heapInv less (removeAt less none s i).2) := by
  constructor
  · intro hb
    unfold removeAt
    rw [if_pos hb]
  · intro hb
    have hj : i.toNat < s.n := by omega
    refine ⟨?_, ?_, ?_, removeAt_heapInv hs s i h⟩
    · unfold removeAt
      rw [if_neg hb]
      simp only []
      by_cases hlast : i.toNat < s.n - 1
      · rw [if_pos hlast, if_pos (by omega : i.toNat ≠ s.n - 1)]
        rw [swap_none_right]
        split <;> rfl
      · have heq : i.toNat = s.n - 1 := by omega
        rw [if_neg hlast, if_neg (by omega : ¬i.toNat ≠ s.n - 1)]
        rw [heq]
    · unfold removeAt
      rw [if_neg hb]
      simp only []
      by_cases hlast : i.toNat < s.n - 1
      · rw [if_pos hlast, if_pos (by omega : i.toNat ≠ s.n - 1)]
        split <;> rfl
      · rw [if_neg hlast, if_neg (by omega : ¬i.toNat ≠ s.n - 1)]
    · unfold removeAt
      rw [if_neg hb]
      simp only []
      have hsucc : s.n = (s.n - 1) + 1 := by omega
      by_cases hlast : i.toNat < s.n - 1
      · rw [if_pos hlast, if_pos (by omega : i.toNat ≠ s.n - 1)]
        have hswap : toM s.n (swap none s.a i.toNat (s.n - 1)) = toM s.n s.a :=
          swap_toM s.a hj (by omega)
        have hdecomp : toM s.n (swap none s.a i.toNat (s.n - 1)) =
            s.a i.toNat ::ₘ toM (s.n - 1) (swap none s.a i.toNat (s.n - 1)) := by
          conv_lhs => rw [hsucc]
          rw [toM_succ]
          simp only [Nat.add_sub_cancel]
          rw [swap_none_right]
        cases hd : down less none (s.n - 1) (swap none s.a i.toNat (s.n - 1))
            i.toNat false with
        | mk c mv =>
          have hcM : toM (s.n - 1) c = toM (s.n - 1)
              (swap none s.a i.toNat (s.n - 1)) := by
            have := @down_toM T less (s.n - 1) (s.n - 1) i.toNat
              (swap none s.a i.toNat (s.n - 1)) false (by omega)
            rwa [hd] at this
          cases mv with
          | true =>
            simp only []
            rw [← hswap, hdecomp, hcM]
          | false =>
            simp only []
            rw [up_toM i.toNat c hlast, ← hswap, hdecomp, hcM]
      · have heq : i.toNat = s.n - 1 := by omega
        rw [if_neg hlast, if_neg (by omega : ¬i.toNat ≠ s.n - 1)]
        simp only []
        conv_lhs => rw [hsucc]
        rw [toM_succ, heq]

/-- Witness for C4: a concrete in-bounds and a concrete out-of-bounds call. -/
theorem removeAt_spec_witness :
    (((2 : Int) < 0 ∨ ((3 : Nat) : Int) ≤ 2) →
      removeAt lessNat none ⟨3, fun k => k⟩ 2 = (none, ⟨3, fun k => k⟩)) ∧
    (¬((2 : Int) < 0 ∨ ((3 : Nat) : Int) ≤ 2) →
      (removeAt lessNat none ⟨3, fun k => k⟩ 2).1 =
        some ((fun k => k) (Int.toNat 2)) ∧
      (removeAt lessNat none ⟨3, fun k => k⟩ 2).2.n = 3 - 1 ∧
      toM 3 (fun k => k) = (fun k => k) (Int.toNat 2) ::ₘ
        toM (3 - 1) (removeAt lessNat none ⟨3, fun k => k⟩ 2).2.a ∧
      heapInv lessNat (removeAt lessNat none ⟨3, fun k => k⟩ 2).2) :=
  removeAt_spec lessNat_swo ⟨3, fun k => k⟩ (by decide) 2

end MultisetProofs

/-!
## The indexed priority queue with the index-writing `onSwap` callback (C3)

`NewIndexedPriorityQueue(less, onSwap)` with the callback of the
repository's test suite (`onSwapItem`): `items[i].Idx = i; items[j].Idx = j`.
The callback fires exactly when two distinct slots exchange contents
(`swap` returns early on `i == j`), receiving the two indices and the
backing storage — both already part of the `swap` embedding above.
-/

/-- An element carrying a priority and a caller-maintained index field
(`heapTestItem` of the repository's test suite, without the ID). -/
structure Elem where
  prio : Nat
  idx : Nat
deriving DecidableEq

/-- Comparator on `Elem`: by priority (the index field is out-of-band). -/
def lessElem : Elem → Elem → Bool := fun x y => x.prio < y.prio

/-- The index-maintaining `onSwap` callback (`onSwapItem` of the test
suite): write the current index into both elements involved in the swap. -/
def onSwapItem (i j : Nat) (a : Nat → Elem) : Nat → Elem := fun k =>
  if k = i then { a i with idx := i }
  else if k = j then { a j with idx := j }
  else a k

/-- `Slice()` / the order visited by `Range`: a copy of the backing array. -/
def slicePQ {T : Type} (s : St T) : List T := (List.range s.n).map s.a

/-- Push/Pop operation for the indexed-queue index-tracking scenario; a
push carries a priority, and the pushed element records the insertion
position (the queue's length at push time) in its index field. -/
inductive IdxOp where
  | pushOp : Nat → IdxOp
  | popOp : IdxOp

/-- Apply one scenario-E operation on the indexed priority queue built with
`lessElem` and the `onSwapItem` callback. -/
def applyIdxOp (s : St Elem) : IdxOp → St Elem
  | .pushOp p => push1 lessElem (some onSwapItem) s ⟨p, s.n⟩
  | .popOp => (pop lessElem (some onSwapItem) s).2

/-- Run a sequence of scenario-E operations. -/
def runIdxOps (s : St Elem) (ops : List IdxOp) : St Elem :=
  ops.foldl applyIdxOp s

/-- All recorded indices agree with the true positions. -/
def idxOk (n : Nat) (a : Nat → Elem) : Prop := ∀ k, k < n → (a k).idx = k

section IdxProofs

theorem swap_some_idx {n : Nat} {a : Nat → Elem} {i j : Nat} (_hi : i < n)
    (_hj : j < n) (h : idxOk n a) :
    idxOk n (swap (some onSwapItem) a i j) := by
  intro k hk
  unfold swap
  by_cases hij : i = j
  · rw [if_pos hij]
    exact h k hk
  · rw [if_neg hij]
    simp only [onSwapItem]
    by_cases hki : k = i
    · simp [hki, hij]
    · by_cases hkj : k = j
      · simp [hki, hkj, Ne.symm hij]
      · simp [hki, hkj]
        exact h k hk

theorem up_some_idx {n : Nat} : ∀ idx (a : Nat → Elem), idx < n →
    idxOk n a → idxOk n (up lessElem (some onSwapItem) a idx) := by
  intro idx
  induction idx using Nat.strong_induction_on with
  | _ idx IH =>
    intro a hn h
    rw [up]
    by_cases h0 : idx = 0
    · rw [dif_pos h0]
      exact h
    · rw [dif_neg h0]
      simp only []
      by_cases hlt : lessElem (a idx) (a ((idx - 1) / 2)) = true
      · rw [if_pos hlt]
        exact IH ((idx - 1) / 2) (by omega) _ (by omega)
          (swap_some_idx hn (by omega) h)
      · rw [if_neg hlt]
        exact h

theorem down_some_idx {n : Nat} : ∀ fuel idx (a : Nat → Elem) moved,
    n - idx ≤ fuel → idxOk n a →
    idxOk n ((down lessElem (some onSwapItem) n a idx moved).1) := by
  intro fuel
  induction fuel with
  | zero =>
    intro idx a moved hf h
    rw [down_eq, if_pos (by omega)]
    exact h
  | succ fuel IH =>
    intro idx a moved hf h
    rw [down_eq]
    by_cases hl : n ≤ 2 * idx + 1
    · rw [if_pos hl]
      exact h
    · rw [if_neg hl]
      by_cases hcond : 2 * idx + 2 < n ∧
          lessElem (a (2 * idx + 2)) (a (2 * idx + 1)) = true
      · rw [if_pos hcond]
        split
        · exact IH _ _ _ (by omega) (swap_some_idx (by omega) (by omega) h)
        · exact h
      · rw [if_neg hcond]
        split
        · exact IH _ _ _ (by omega) (swap_some_idx (by omega) (by omega) h)
        · exact h

theorem applyIdxOp_idxOk (s : St Elem) (op : IdxOp)
    (h : idxOk s.n s.a) : idxOk (applyIdxOp s op).n (applyIdxOp s op).a := by
  cases op with
  | pushOp p =>
    unfold applyIdxOp push1
    simp only []
    apply up_some_idx s.n _ (by omega)
    intro k hk
    by_cases hkn : k = s.n
    · simp [hkn]
    · simp only [if_neg hkn]
      exact h k (by omega)
  | popOp =>
    unfold applyIdxOp pop
    by_cases h0 : s.n = 0
    · rw [if_pos h0]
      exact h
    · rw [if_neg h0]
      simp only []
      have hb : idxOk s.n (swap (some onSwapItem) s.a 0 (s.n - 1)) :=
        swap_some_idx (by omega) (by omega) h
      by_cases h1 : s.n - 1 > 0
      · rw [if_pos h1]
        dsimp only
        exact down_some_idx (s.n - 1) 0 _ false (by omega)
          (fun k hk => hb k (by omega))
      · rw [if_neg h1]
        dsimp only
        intro k hk
        exact hb k (by omega)

/-- C3 (amended): if every pushed element records its insertion position,
then after any sequence of Push/Pop operations on the indexed priority
queue with the index-writing `onSwap` callback, every element of the
`Slice()`/`Range` snapshot records exactly its position in that snapshot. -/
theorem indexed_onSwap_indices (z : Nat → Elem) (ops : List IdxOp) :
    ∀ k, k < (slicePQ (runIdxOps ⟨0, z⟩ ops)).length →
      ((slicePQ (runIdxOps ⟨0, z⟩ ops)).getD k ⟨0, 0⟩).idx = k := by
  have hrun : ∀ (s : St Elem), idxOk s.n s.a →
      idxOk (runIdxOps s ops).n (runIdxOps s ops).a := by
    induction ops with
    | nil => intro s h; exact h
    | cons op ops IH =>
      intro s h
      exact IH _ (applyIdxOp_idxOk s op h)
  have hok : idxOk (runIdxOps ⟨0, z⟩ ops).n (runIdxOps ⟨0, z⟩ ops).a := by
    apply hrun
    intro k hk
    simp at hk
  intro k hk
  unfold slicePQ at hk ⊢
  simp only [List.length_map, List.length_range] at hk
  rw [List.getD_eq_getElem _ _ (by simp [hk])]
  simp only [List.getElem_map, List.getElem_range]
  exact hok k hk

/-- Witness for C3's amended theorem at a concrete operation sequence. -/
theorem indexed_onSwap_indices_witness :
    ((slicePQ (runIdxOps ⟨0, fun _ => ⟨0, 0⟩⟩
        [IdxOp.pushOp 3, IdxOp.pushOp 1, IdxOp.pushOp 2, IdxOp.popOp])).getD 1
      ⟨0, 0⟩).idx = 1 := by
  apply indexed_onSwap_indices (fun _ => ⟨0, 0⟩)
    [IdxOp.pushOp 3, IdxOp.pushOp 1, IdxOp.pushOp 2, IdxOp.popOp] 1
  simp [slicePQ, runIdxOps, applyIdxOp, push1, pop, up, down, swap,
    onSwapItem, lessElem]

/-- C3 as literally stated is false: an element pushed with a stale
recorded index that never takes part in a swap keeps it.  Pushing
priorities `1` then `2` (both with recorded index `0`) leaves the element
at position `1` of the `Slice()` snapshot recording index `0`. -/
theorem indexed_onSwap_counterexample :
    (slicePQ (push lessElem (some onSwapItem) ⟨0, fun _ => ⟨0, 0⟩⟩
      [⟨1, 0⟩, ⟨2, 0⟩])).map Elem.idx = [0, 0] ∧
    ¬ (∀ k, k < (slicePQ (push lessElem (some onSwapItem) ⟨0, fun _ => ⟨0, 0⟩⟩
        [⟨1, 0⟩, ⟨2, 0⟩])).length →
      ((slicePQ (push lessElem (some onSwapItem) ⟨0, fun _ => ⟨0, 0⟩⟩
        [⟨1, 0⟩, ⟨2, 0⟩])).getD k ⟨0, 0⟩).idx = k) := by
  have hval : slicePQ (push lessElem (some onSwapItem) ⟨0, fun _ => ⟨0, 0⟩⟩
      [⟨1, 0⟩, ⟨2, 0⟩]) = [⟨1, 0⟩, ⟨2, 0⟩] := by
    simp [slicePQ, push, push1, up, swap, onSwapItem, lessElem,
      List.range_succ]
  rw [hval]
  constructor
  · rfl
  · intro hall
    have := hall 1 (by simp)
    simp at this

end IdxProofs

/-!
## The map family: `MutexMap`, `RWMutexMap`, `SyncMap`

A Go `map[K]V` (and the associative content of a `sync.Map`) is modelled as
an association list with at most one entry per key; `panic` is modelled as
`Except.error`.  The `equal` function attached at construction is an
`Option (V → V → Bool)`; for `SyncMap`, native Go comparability of `V`
(needed by the `sync.Map.CompareAndSwap` fallback) is a second
`Option (V → V → Bool)`, `none` meaning the runtime would panic with
"comparing uncomparable types".
-/

section Maps

variable {K V : Type} [DecidableEq K]

/-- `m[key]` with the comma-ok idiom. -/
def mapLookup (m : List (K × V)) (key : K) : Option V :=
  match m with
  | [] => none
  | (k, v) :: rest => if k = key then some v else mapLookup rest key

/-- `m[key] = value`: replace the entry in place, or append a new one. -/
def mapInsert (m : List (K × V)) (key : K) (value : V) : List (K × V) :=
  match m with
  | [] => [(key, value)]
  | (k, v) :: rest =>
    if k = key then (k, value) :: rest else (k, v) :: mapInsert rest key value

/-- `delete(m, key)`. -/
def mapErase (m : List (K × V)) (key : K) : List (K × V) :=
  match m with
  | [] => []
  | (k, v) :: rest => if k = key then rest else (k, v) :: mapErase rest key

/-- The operations of the `Map` interface exercised single-threaded. -/
inductive MapOp (K V : Type) where
  | getOp : K → MapOp K V
  | setOp : K → V → MapOp K V
  | deleteOp : K → MapOp K V
  | lenOp : MapOp K V
  | clearOp : MapOp K V
  | casOp : K → V → V → MapOp K V
  | swapOp : K → V → MapOp K V
  | loadOrStoreOp : K → V → MapOp K V
  | loadAndDeleteOp : K → MapOp K V
  | getAllOp : MapOp K V
  | getManyOp : List K → MapOp K V
  | setManyOp : List (K × V) → MapOp K V

/-- The externally observable result of one map operation. -/
inductive MapOut (K V : Type) where
  | unitOut : MapOut K V
  | boolOut : Bool → MapOut K V
  | valOut : Option V → MapOut K V
  | natOut : Nat → MapOut K V
  | mapOut : List (K × V) → MapOut K V
deriving DecidableEq

namespace MutexMap

/-- `MutexMap.CompareAndSwap`: missing key reports `false`; with an `equal`
function the value is compared and conditionally replaced; without one the
call panics. -/
def CompareAndSwap (equal : Option (V → V → Bool)) (m : List (K × V))
    (key : K) (oldValue newValue : V) : Except String (Bool × List (K × V)) :=
  match mapLookup m key with
  | none => .ok (false, m)
  | some current =>
    match equal with
    | some eq =>
      if eq current oldValue then .ok (true, mapInsert m key newValue)
      else .ok (false, m)
    | none => .error "called CompareAndSwap without equal function"

/-- One step of `MutexMap` (each method's body from `map_mutex.go`, the
lock acquisition/release elided). -/
def step (equal : Option (V → V → Bool)) (m : List (K × V)) :
    MapOp K V → Except String (MapOut K V × List (K × V))
  | .getOp key => .ok (.valOut (mapLookup m key), m)
  | .setOp key value => .ok (.unitOut, mapInsert m key value)
  | .deleteOp key => .ok (.unitOut, mapErase m key)
  | .lenOp => .ok (.natOut m.length, m)
  | .clearOp => .ok (.unitOut, [])
  | .casOp key oldV newV => do
    let (b, m') ← CompareAndSwap equal m key oldV newV
    .ok (.boolOut b, m')
  | .swapOp key value =>
    match mapLookup m key with
    | some old => .ok (.valOut (some old), mapInsert m key value)
    | none => .ok (.valOut none, mapInsert m key value)
  | .loadOrStoreOp key value =>
    match mapLookup m key with
    | some v => .ok (.valOut (some v), m)
    | none => .ok (.valOut none, mapInsert m key value)
  | .loadAndDeleteOp key =>
    match mapLookup m key with
    | some v => .ok (.valOut (some v), mapErase m key)
    | none => .ok (.valOut none, m)
  | .getAllOp => .ok (.mapOut m, m)
  | .getManyOp keys =>
    .ok (.mapOut (keys.foldl (fun acc k =>
      match mapLookup m k with
      | some v => mapInsert acc k v
      | none => acc) []), m)
  | .setManyOp entries =>
    .ok (.unitOut, entries.foldl (fun acc e => mapInsert acc e.1 e.2) m)

/-- Run an operation sequence on a `MutexMap`, collecting results. -/
def run (equal : Option (V → V → Bool)) :
    List (MapOp K V) → List (K × V) → Except String (List (MapOut K V))
  | [], _ => .ok []
  | op :: ops, m => do
    let (o, m') ← step equal m op
    let rest ← run equal ops m'
    .ok (o :: rest)

end MutexMap

namespace RWMutexMap

/-- `RWMutexMap.CompareAndSwap` (`map_rwmutex.go`): same logic as
`MutexMap` under a write lock. -/
def CompareAndSwap (equal : Option (V → V → Bool)) (m : List (K × V))
    (key : K) (oldValue newValue : V) : Except String (Bool × List (K × V)) :=
  match mapLookup m key with
  | none => .ok (false, m)
  | some current =>
    match equal with
    | some eq =>
      if eq current oldValue then .ok (true, mapInsert m key newValue)
      else .ok (false, m)
    | none => .error "called CompareAndSwap without equal function"

/-- One step of `RWMutexMap` (each method's body from `map_rwmutex.go`). -/
def step (equal : Option (V → V → Bool)) (m : List (K × V)) :
    MapOp K V → Except String (MapOut K V × List (K × V))
  | .getOp key => .ok (.valOut (mapLookup m key), m)
  | .setOp key value => .ok (.unitOut, mapInsert m key value)
  | .deleteOp key => .ok (.unitOut, mapErase m key)
  | .lenOp => .ok (.natOut m.length, m)
  | .clearOp => .ok (.unitOut, [])
  | .casOp key oldV newV => do
    let (b, m') ← CompareAndSwap equal m key oldV newV
    .ok (.boolOut b, m')
  | .swapOp key value =>
    match mapLookup m key with
    | some old => .ok (.valOut (some old), mapInsert m key value)
    | none => .ok (.valOut none, mapInsert m key value)
  | .loadOrStoreOp key value =>
    match mapLookup m key with
    | some v => .ok (.valOut (some v), m)
    | none => .ok (.valOut none, mapInsert m key value)
  | .loadAndDeleteOp key =>
    match mapLookup m key with
    | some v => .ok (.valOut (some v), mapErase m key)
    | none => .ok (.valOut none, m)
  | .getAllOp => .ok (.mapOut m, m)
  | .getManyOp keys =>
    .ok (.mapOut (keys.foldl (fun acc k =>
      match mapLookup m k with
      | some v => mapInsert acc k v
      | none => acc) []), m)
  | .setManyOp entries =>
    .ok (.unitOut, entries.foldl (fun acc e => mapInsert acc e.1 e.2) m)

/-- Run an operation sequence on an `RWMutexMap`. -/
def run (equal : Option (V → V → Bool)) :
    List (MapOp K V) → List (K × V) → Except String (List (MapOut K V))
  | [], _ => .ok []
  | op :: ops, m => do
    let (o, m') ← step equal m op
    let rest ← run equal ops m'
    .ok (o :: rest)

end RWMutexMap

namespace SyncMap

/-- `SyncMap.Len` counts entries by ranging over the `sync.Map`. -/
def Len (m : List (K × V)) : Nat := m.foldl (fun c _ => c + 1) 0

/-- `SyncMap.CompareAndSwap` (`map_sync.go`): missing key reports `false`;
with an `equal` function the value is compared and conditionally stored;
without one it falls back on `sync.Map.CompareAndSwap`, which uses native
Go equality and panics when `V` is not a comparable type (`native = none`
models a non-comparable `V`). -/
def CompareAndSwap (equal native : Option (V → V → Bool)) (m : List (K × V))
    (key : K) (oldValue newValue : V) : Except String (Bool × List (K × V)) :=
  match mapLookup m key with
  | none => .ok (false, m)
  | some current =>
    match equal with
    | some eq =>
      if eq current oldValue then .ok (true, mapInsert m key newValue)
      else .ok (false, m)
    | none =>
      match native with
      | some beq =>
        if beq current oldValue then .ok (true, mapInsert m key newValue)
        else .ok (false, m)
      | none => .error "comparing uncomparable types"

/-- One step of `SyncMap` (each method's body from `map_sync.go`,
delegating to the `sync.Map` point operations, whose sequential semantics
are those of an associative store). -/
def step (equal native : Option (V → V → Bool)) (m : List (K × V)) :
    MapOp K V → Except String (MapOut K V × List (K × V))
  | .getOp key => .ok (.valOut (mapLookup m key), m)
  | .setOp key value => .ok (.unitOut, mapInsert m key value)
  | .deleteOp key => .ok (.unitOut, mapErase m key)
  | .lenOp => .ok (.natOut (Len m), m)
  | .clearOp => .ok (.unitOut, [])
  | .casOp key oldV newV => do
    let (b, m') ← CompareAndSwap equal native m key oldV newV
    .ok (.boolOut b, m')
  | .swapOp key value =>
    match mapLookup m key with
    | some old => .ok (.valOut (some old), mapInsert m key value)
    | none => .ok (.valOut none, mapInsert m key value)
  | .loadOrStoreOp key value =>
    match mapLookup m key with
    | some v => .ok (.valOut (some v), m)
    | none => .ok (.valOut none, mapInsert m key value)
  | .loadAndDeleteOp key =>
    match mapLookup m key with
    | some v => .ok (.valOut (some v), mapErase m key)
    | none => .ok (.valOut none, m)
  | .getAllOp => .ok (.mapOut m, m)
  | .getManyOp keys =>
    .ok (.mapOut (keys.foldl (fun acc k =>
      match mapLookup m k with
      | some v => mapInsert acc k v
      | none => acc) []), m)
  | .setManyOp entries =>
    .ok (.unitOut, entries.foldl (fun acc e => mapInsert acc e.1 e.2) m)

/-- Run an operation sequence on a `SyncMap`. -/
def run (equal native : Option (V → V → Bool)) :
    List (MapOp K V) → List (K × V) → Except String (List (MapOut K V))
  | [], _ => .ok []
  | op :: ops, m => do
    let (o, m') ← step equal native m op
    let rest ← run equal native ops m'
    .ok (o :: rest)

end SyncMap

omit [DecidableEq K] in
theorem syncLen_eq_length (m : List (K × V)) : SyncMap.Len m = m.length := by
  unfold SyncMap.Len
  have : ∀ (l : List (K × V)) (c : Nat), l.foldl (fun c _ => c + 1) c = c + l.length := by
    intro l
    induction l with
    | nil => intro c; simp
    | cons x xs IH =>
      intro c
      simp only [List.foldl_cons, List.length_cons]
      rw [IH]
      omega
  rw [this]
  omega

/-- With an `equal` function supplied, the three strategies take the same
step on every operation. -/
theorem map_step_agree (eq : V → V → Bool)
    (native : Option (V → V → Bool)) (m : List (K × V)) (op : MapOp K V) :
    MutexMap.step (some eq) m op = RWMutexMap.step (some eq) m op ∧
    MutexMap.step (some eq) m op = SyncMap.step (some eq) native m op := by
  cases op with
  | lenOp =>
    refine ⟨rfl, ?_⟩
    simp only [MutexMap.step, SyncMap.step, syncLen_eq_length]
  | casOp key oldV newV =>
    refine ⟨rfl, ?_⟩
    simp only [MutexMap.step, SyncMap.step, MutexMap.CompareAndSwap,
      SyncMap.CompareAndSwap]
  | getOp key => exact ⟨rfl, rfl⟩
  | setOp key value => exact ⟨rfl, rfl⟩
  | deleteOp key => exact ⟨rfl, rfl⟩
  | clearOp => exact ⟨rfl, rfl⟩
  | swapOp key value => exact ⟨rfl, rfl⟩
  | loadOrStoreOp key value => exact ⟨rfl, rfl⟩
  | loadAndDeleteOp key => exact ⟨rfl, rfl⟩
  | getAllOp => exact ⟨rfl, rfl⟩
  | getManyOp keys => exact ⟨rfl, rfl⟩
  | setManyOp entries => exact ⟨rfl, rfl⟩

/-- C5 (amended): for maps constructed with an equality function, every
single-threaded operation sequence produces identical externally observable
results on all three strategies. -/
theorem map_strategies_agree (eq : V → V → Bool)
    (native : Option (V → V → Bool)) (ops : List (MapOp K V))
    (m : List (K × V)) :
    MutexMap.run (some eq) ops m = RWMutexMap.run (some eq) ops m ∧
    MutexMap.run (some eq) ops m = SyncMap.run (some eq) native ops m := by
  induction ops generalizing m with
  | nil => exact ⟨rfl, rfl⟩
  | cons op ops IH =>
    obtain ⟨h1, h2⟩ := map_step_agree eq native m op
    constructor
    · simp only [MutexMap.run, RWMutexMap.run, ← h1]
      cases hstep : MutexMap.step (some eq) m op with
      | error e => rfl
      | ok p =>
        simp only [bind, Except.bind]
        rw [(IH p.2).1]
    · simp only [MutexMap.run, SyncMap.run, ← h2]
      cases hstep : MutexMap.step (some eq) m op with
      | error e => rfl
      | ok p =>
        simp only [bind, Except.bind]
        rw [(IH p.2).2]

/-- C5 as literally stated is false: on maps constructed without an
equality function, the sequence `Set(1,1); CompareAndSwap(1,1,2)` with a
natively comparable value type panics on the mutex-based strategies but
succeeds (returning `true`) on the `sync.Map`-backed one. -/
theorem map_strategies_counterexample :
    MutexMap.run (K := Nat) (V := Nat) none
      [MapOp.setOp 1 1, MapOp.casOp 1 1 2] [] =
      .error "called CompareAndSwap without equal function" ∧
    SyncMap.run (K := Nat) (V := Nat) none (some (fun a b => a == b))
      [MapOp.setOp 1 1, MapOp.casOp 1 1 2] [] =
      .ok [MapOut.unitOut, MapOut.boolOut true] ∧
    MutexMap.run (K := Nat) (V := Nat) none
      [MapOp.setOp 1 1, MapOp.casOp 1 1 2] [] ≠
    SyncMap.run (K := Nat) (V := Nat) none (some (fun a b => a == b))
      [MapOp.setOp 1 1, MapOp.casOp 1 1 2] [] := by
  refine ⟨rfl, rfl, ?_⟩
  intro h
  exact Except.noConfusion h

/-- C8: with the value-equality function attached, `CompareAndSwap` stores
the new value and returns `true` exactly when the currently stored value
equals `oldValue`, and otherwise returns `false` leaving the map unchanged,
on all three map implementations; in particular scenario C holds:
`Set(k,1)`, then `CAS(k,1,2)` is `true` and `Get` yields `2`, then the
stale `CAS(k,1,3)` is `false` and `Get` still yields `2`. -/
theorem cas_semantics {K V : Type} [DecidableEq K] [DecidableEq V]
    (native : Option (V → V → Bool)) (m : List (K × V)) (key : K)
    (oldV newV : V) :
    (MutexMap.CompareAndSwap (some fun a b => decide (a = b)) m key oldV newV =
      if mapLookup m key = some oldV then .ok (true, mapInsert m key newV)
      else .ok (false, m)) ∧
    (RWMutexMap.CompareAndSwap (some fun a b => decide (a = b)) m key oldV newV =
      if mapLookup m key = some oldV then .ok (true, mapInsert m key newV)
      else .ok (false, m)) ∧
    (SyncMap.CompareAndSwap (some fun a b => decide (a = b)) native m key oldV newV =
      if mapLookup m key = some oldV then .ok (true, mapInsert m key newV)
      else .ok (false, m)) ∧
    (MutexMap.run (K := Nat) (V := Nat) (some fun a b => a == b)
      [MapOp.setOp 0 1, MapOp.casOp 0 1 2, MapOp.getOp 0,
        MapOp.casOp 0 1 3, MapOp.getOp 0] [] =
      .ok [MapOut.unitOut, MapOut.boolOut true, MapOut.valOut (some 2),
        MapOut.boolOut false, MapOut.valOut (some 2)]) ∧
    (RWMutexMap.run (K := Nat) (V := Nat) (some fun a b => a == b)
      [MapOp.setOp 0 1, MapOp.casOp 0 1 2, MapOp.getOp 0,
        MapOp.casOp 0 1 3, MapOp.getOp 0] [] =
      .ok [MapOut.unitOut, MapOut.boolOut true, MapOut.valOut (some 2),
        MapOut.boolOut false, MapOut.valOut (some 2)]) ∧
    (SyncMap.run (K := Nat) (V := Nat) (some fun a b => a == b) none
      [MapOp.setOp 0 1, MapOp.casOp 0 1 2, MapOp.getOp 0,
        MapOp.casOp 0 1 3, MapOp.getOp 0] [] =
      .ok [MapOut.unitOut, MapOut.boolOut true, MapOut.valOut (some 2),
        MapOut.boolOut false, MapOut.valOut (some 2)]) := by
  refine ⟨?_, ?_, ?_, rfl, rfl, rfl⟩
  · unfold MutexMap.CompareAndSwap
    cases h : mapLookup m key with
    | none => simp [h]
    | some current =>
      by_cases hco : current = oldV
      · subst hco
        simp [h]
      · simp [h, hco]
  · unfold RWMutexMap.CompareAndSwap
    cases h : mapLookup m key with
    | none => simp [h]
    | some current =>
      by_cases hco : current = oldV
      · subst hco
        simp [h]
      · simp [h, hco]
  · unfold SyncMap.CompareAndSwap
    cases h : mapLookup m key with
    | none => simp [h]
    | some current =>
      by_cases hco : current = oldV
      · subst hco
        simp [h]
      · simp [h, hco]

/-- Witness for C8 at a concrete map. -/
theorem cas_semantics_witness :
    (MutexMap.CompareAndSwap (K := Nat) (V := Nat)
        (some fun a b => decide (a = b)) [(0, 5)] 0 5 7 =
      if mapLookup [(0, 5)] 0 = some 5 then .ok (true, mapInsert [(0, 5)] 0 7)
      else .ok (false, [(0, 5)])) ∧
    (RWMutexMap.CompareAndSwap (K := Nat) (V := Nat)
        (some fun a b => decide (a = b)) [(0, 5)] 0 5 7 =
      if mapLookup [(0, 5)] 0 = some 5 then .ok (true, mapInsert [(0, 5)] 0 7)
      else .ok (false, [(0, 5)])) ∧
    (SyncMap.CompareAndSwap (K := Nat) (V := Nat)
        (some fun a b => decide (a = b)) none [(0, 5)] 0 5 7 =
      if mapLookup [(0, 5)] 0 = some 5 then .ok (true, mapInsert [(0, 5)] 0 7)
      else .ok (false, [(0, 5)])) ∧
    (MutexMap.run (K := Nat) (V := Nat) (some fun a b => a == b)
      [MapOp.setOp 0 1, MapOp.casOp 0 1 2, MapOp.getOp 0,
        MapOp.casOp 0 1 3, MapOp.getOp 0] [] =
      .ok [MapOut.unitOut, MapOut.boolOut true, MapOut.valOut (some 2),
        MapOut.boolOut false, MapOut.valOut (some 2)]) ∧
    (RWMutexMap.run (K := Nat) (V := Nat) (some fun a b => a == b)
      [MapOp.setOp 0 1, MapOp.casOp 0 1 2, MapOp.getOp 0,
        MapOp.casOp 0 1 3, MapOp.getOp 0] [] =
      .ok [MapOut.unitOut, MapOut.boolOut true, MapOut.valOut (some 2),
        MapOut.boolOut false, MapOut.valOut (some 2)]) ∧
    (SyncMap.run (K := Nat) (V := Nat) (some fun a b => a == b) none
      [MapOp.setOp 0 1, MapOp.casOp 0 1 2, MapOp.getOp 0,
        MapOp.casOp 0 1 3, MapOp.getOp 0] [] =
      .ok [MapOut.unitOut, MapOut.boolOut true, MapOut.valOut (some 2),
        MapOut.boolOut false, MapOut.valOut (some 2)]) :=
  cas_semantics none [(0, 5)] 0 5 7

/-- C9 (amended): when the key is present, calling `CompareAndSwap` on a
map constructed without the required equality function is fatal: the
mutex-based maps panic unconditionally, and the `sync.Map`-backed one
panics when the value type is not natively comparable. -/
theorem cas_without_equal_panics {K V : Type} [DecidableEq K]
    (m : List (K × V)) (key : K) (cur : V) (h : mapLookup m key = some cur)
    (oldV newV : V) :
    MutexMap.CompareAndSwap none m key oldV newV =
      .error "called CompareAndSwap without equal function" ∧
    RWMutexMap.CompareAndSwap none m key oldV newV =
      .error "called CompareAndSwap without equal function" ∧
    SyncMap.CompareAndSwap none none m key oldV newV =
      .error "comparing uncomparable types" := by
  refine ⟨?_, ?_, ?_⟩
  · unfold MutexMap.CompareAndSwap
    rw [h]
  · unfold RWMutexMap.CompareAndSwap
    rw [h]
  · unfold SyncMap.CompareAndSwap
    rw [h]

/-- Witness for C9's amended theorem: the key `0` is present. -/
theorem cas_without_equal_panics_witness :
    MutexMap.CompareAndSwap (K := Nat) (V := Nat) none [(0, 1)] 0 1 2 =
      .error "called CompareAndSwap without equal function" ∧
    RWMutexMap.CompareAndSwap (K := Nat) (V := Nat) none [(0, 1)] 0 1 2 =
      .error "called CompareAndSwap without equal function" ∧
    SyncMap.CompareAndSwap (K := Nat) (V := Nat) none none [(0, 1)] 0 1 2 =
      .error "comparing uncomparable types" :=
  cas_without_equal_panics [(0, 1)] 0 1 (by decide) 1 2

/-- C9 as literally stated is false: `CompareAndSwap` on a map constructed
without an equality function, with a non-natively-comparable value type
(here `Nat → Nat`), returns `false` normally — it does not panic — when the
key is absent. -/
theorem cas_without_equal_missing_key_counterexample :
    MutexMap.CompareAndSwap (K := Nat) (V := Nat → Nat) none [] 0 id id =
      .ok (false, []) ∧
    RWMutexMap.CompareAndSwap (K := Nat) (V := Nat → Nat) none [] 0 id id =
      .ok (false, []) ∧
    SyncMap.CompareAndSwap (K := Nat) (V := Nat → Nat) none none [] 0 id id =
      .ok (false, []) :=
  ⟨rfl, rfl, rfl⟩

/-- C10: on every map implementation, `CompareAndSwap` with an absent key
returns `false` and leaves the map unchanged, for every choice of equality
function (including none) and regardless of native comparability: the
equality machinery is never consulted, so a missing-key call never panics. -/
theorem cas_missing_key_no_panic {K V : Type} [DecidableEq K]
    (equal native : Option (V → V → Bool)) (m : List (K × V)) (key : K)
    (h : mapLookup m key = none) (oldV newV : V) :
    MutexMap.CompareAndSwap equal m key oldV newV = .ok (false, m) ∧
    RWMutexMap.CompareAndSwap equal m key oldV newV = .ok (false, m) ∧
    SyncMap.CompareAndSwap equal native m key oldV newV = .ok (false, m) := by
  refine ⟨?_, ?_, ?_⟩
  · unfold MutexMap.CompareAndSwap
    rw [h]
  · unfold RWMutexMap.CompareAndSwap
    rw [h]
  · unfold SyncMap.CompareAndSwap
    rw [h]

/-- Witness for C10: the key `0` is absent (and the value type is not even
comparable). -/
theorem cas_missing_key_no_panic_witness :
    MutexMap.CompareAndSwap (K := Nat) (V := Nat → Nat) none [(1, id)] 0 id id =
      .ok (false, [(1, id)]) ∧
    RWMutexMap.CompareAndSwap (K := Nat) (V := Nat → Nat) none [(1, id)] 0 id id =
      .ok (false, [(1, id)]) ∧
    SyncMap.CompareAndSwap (K := Nat) (V := Nat → Nat) none none [(1, id)] 0 id id =
      .ok (false, [(1, id)]) :=
  cas_missing_key_no_panic none none [(1, id)] 0 (by simp [mapLookup]) id id

end Maps

/-!
## The FIFO queue `RWMutexQueue` (C7)

Backed by a slice plus a consumed-prefix `head` index; `Pop` compacts the
backing array once `head` exceeds `shrinkThreshold` (64) and at least half
of the slice is unused.
-/

/-- `shrinkThreshold`: when head exceeds this and half the slice is unused,
shrink. -/
def shrinkThreshold : Nat := 64

/-- `RWMutexQueue` state: the backing slice and the head index. -/
structure QSt (T : Type) where
  items : List T
  head : Nat

namespace RWMutexQueue

variable {T : Type}

/-- `Push(items...)`: append to the back. -/
def Push (s : QSt T) (xs : List T) : QSt T :=
  if xs.isEmpty then s else { s with items := s.items ++ xs }

/-- `Pop`: take the front element, advance `head`, and periodically
reclaim memory by copying the active suffix into a fresh right-sized array
and resetting `head` to zero. -/
def Pop (s : QSt T) : Option T × QSt T :=
  if h : s.items.length ≤ s.head then (none, s)
  else
    let item := s.items.get ⟨s.head, by omega⟩
    let newHead := s.head + 1
    if newHead > shrinkThreshold ∧ newHead * 2 ≥ s.items.length then
      (some item, { items := s.items.drop newHead, head := 0 })
    else
      (some item, { items := s.items, head := newHead })

/-- `Peek`: the front element, without mutation. -/
def Peek (s : QSt T) : Option T :=
  if h : s.items.length ≤ s.head then none
  else some (s.items.get ⟨s.head, by omega⟩)

/-- `Len`: number of live elements. -/
def Len (s : QSt T) : Nat := s.items.length - s.head

/-- `Slice`: copy of the contents from front to back. -/
def Slice (s : QSt T) : List T :=
  if s.items.length ≤ s.head then [] else s.items.drop s.head

/-- The list `Range` iterates, front to back (the reslice `items[head:]`). -/
def rangeList (s : QSt T) : List T := s.items.drop s.head

end RWMutexQueue

/-- A queue operation: push a batch, or pop once. -/
inductive QOp (T : Type) where
  | pushQ : List T → QOp T
  | popQ : QOp T

/-- Apply one queue operation (discarding the output). -/
def applyQOp {T : Type} (s : QSt T) : QOp T → QSt T
  | .pushQ xs => RWMutexQueue.Push s xs
  | .popQ => (RWMutexQueue.Pop s).2

/-- Run a sequence of queue operations from a state. -/
def runQOps {T : Type} (s : QSt T) (ops : List (QOp T)) : QSt T :=
  ops.foldl applyQOp s

/-- The abstract FIFO queue the implementation must simulate: the plain
list of unconsumed elements in push order. -/
def aQueue {T : Type} (ops : List (QOp T)) : List T :=
  ops.foldl (fun l op =>
    match op with
    | .pushQ xs => l ++ xs
    | .popQ => l.tail) []

section QueueProofs

variable {T : Type}

/-- The coupling relation: the live suffix is the abstract queue, and the
head never passes the end. -/
def QRel (s : QSt T) (l : List T) : Prop :=
  s.items.drop s.head = l ∧ s.head ≤ s.items.length

theorem push_QRel (s : QSt T) (l : List T) (xs : List T) (h : QRel s l) :
    QRel (RWMutexQueue.Push s xs) (l ++ xs) := by
  obtain ⟨h1, h2⟩ := h
  unfold RWMutexQueue.Push
  by_cases he : xs.isEmpty
  · rw [if_pos he]
    have : xs = [] := List.isEmpty_iff.mp he
    subst this
    simp [QRel, h1, h2]
  · rw [if_neg he]
    constructor
    · simp only []
      rw [List.drop_append_of_le_length h2, h1]
    · simp only [List.length_append]
      omega

theorem pop_QRel (s : QSt T) (l : List T) (h : QRel s l) :
    (RWMutexQueue.Pop s).1 = l.head? ∧ QRel (RWMutexQueue.Pop s).2 l.tail := by
  obtain ⟨h1, h2⟩ := h
  unfold RWMutexQueue.Pop
  by_cases hend : s.items.length ≤ s.head
  · rw [dif_pos hend]
    have hl : l = [] := by
      rw [← h1]
      exact List.drop_eq_nil_of_le hend
    subst hl
    exact ⟨rfl, h1, h2⟩
  · rw [dif_neg hend]
    have hhead : l.head? = some (s.items.get ⟨s.head, by omega⟩) := by
      rw [← h1, List.head?_drop]
      simp [List.getElem?_eq_getElem (by omega : s.head < s.items.length)]
    have htail : s.items.drop (s.head + 1) = l.tail := by
      rw [← h1, List.tail_drop]
    by_cases hc : s.head + 1 > shrinkThreshold ∧
        (s.head + 1) * 2 ≥ s.items.length
    · rw [if_pos hc]
      refine ⟨hhead.symm, ?_, ?_⟩
      · simp only [List.drop_zero]
        exact htail
      · simp
    · rw [if_neg hc]
      refine ⟨hhead.symm, htail, ?_⟩
      show s.head + 1 ≤ s.items.length
      omega

theorem runQOps_QRel (ops : List (QOp T)) :
    QRel (runQOps ⟨[], 0⟩ ops) (aQueue ops) := by
  have : ∀ (s : QSt T) (l : List T), QRel s l →
      QRel (runQOps s ops) (ops.foldl (fun l op =>
        match op with
        | QOp.pushQ xs => l ++ xs
        | QOp.popQ => l.tail) l) := by
    induction ops with
    | nil => intro s l h; exact h
    | cons op ops IH =>
      intro s l h
      cases op with
      | pushQ xs => exact IH _ _ (push_QRel s l xs h)
      | popQ => exact IH _ _ (pop_QRel s l h).2
  exact this ⟨[], 0⟩ [] ⟨rfl, Nat.le_refl 0⟩

/-- C7: the queue is strict FIFO — after any operation sequence from the
empty queue, `Pop`/`Peek`/`Slice`/`Range` see exactly the pushed-but-not-
popped elements in push order and `Len` is their number — and a successful
`Pop` compacts (copies the active suffix into a fresh array and resets the
head to zero, contents unchanged) exactly when the incremented head index
exceeds the threshold 64 and at least half the backing array is unused. -/
theorem queue_fifo_len_compaction :
    (∀ (ops : List (QOp T)),
      (RWMutexQueue.Pop (runQOps ⟨[], 0⟩ ops)).1 = (aQueue ops).head? ∧
      RWMutexQueue.Peek (runQOps ⟨[], 0⟩ ops) = (aQueue ops).head? ∧
      RWMutexQueue.Slice (runQOps ⟨[], 0⟩ ops) = aQueue ops ∧
      RWMutexQueue.rangeList (runQOps ⟨[], 0⟩ ops) = aQueue ops ∧
      RWMutexQueue.Len (runQOps ⟨[], 0⟩ ops) = (aQueue ops).length) ∧
    (∀ (s : QSt T), s.head < s.items.length →
      ((RWMutexQueue.Pop s).2.head = 0 ↔
        s.head + 1 > shrinkThreshold ∧ (s.head + 1) * 2 ≥ s.items.length) ∧
      ((s.head + 1 > shrinkThreshold ∧ (s.head + 1) * 2 ≥ s.items.length) →
        (RWMutexQueue.Pop s).2 =
          ⟨s.items.drop (s.head + 1), 0⟩)) := by
  constructor
  · intro ops
    obtain ⟨h1, h2⟩ := runQOps_QRel (T := T) ops
    refine ⟨?_, ?_, ?_, ?_, ?_⟩
    · exact (pop_QRel _ _ ⟨h1, h2⟩).1
    · unfold RWMutexQueue.Peek
      by_cases hend : (runQOps ⟨[], 0⟩ ops).items.length ≤ (runQOps ⟨[], 0⟩ ops).head
      · rw [dif_pos hend]
        have : aQueue ops = [] := by
          rw [← h1]
          exact List.drop_eq_nil_of_le hend
        rw [this]
        rfl
      · rw [dif_neg hend]
        rw [← h1, List.head?_drop]
        simp [List.getElem?_eq_getElem (by omega :
          (runQOps ⟨[], 0⟩ ops).head < (runQOps ⟨[], 0⟩ ops).items.length)]
    · unfold RWMutexQueue.Slice
      by_cases hend : (runQOps ⟨[], 0⟩ ops).items.length ≤ (runQOps ⟨[], 0⟩ ops).head
      · rw [if_pos hend]
        rw [← h1]
        exact (List.drop_eq_nil_of_le hend).symm
      · rw [if_neg hend]
        exact h1
    · exact h1
    · unfold RWMutexQueue.Len
      rw [← h1]
      simp
  · intro s hlt
    unfold RWMutexQueue.Pop
    rw [dif_neg (by omega)]
    by_cases hc : s.head + 1 > shrinkThreshold ∧
        (s.head + 1) * 2 ≥ s.items.length
    · rw [if_pos hc]
      exact ⟨by simp [hc], fun _ => rfl⟩
    · rw [if_neg hc]
      constructor
      · simp only []
        constructor
        · intro h0
          omega
        · intro hcc
          exact absurd hcc hc
      · intro hcc
        exact absurd hcc hc

/-- Witness for C7: a concrete run crossing the compaction threshold, and a
concrete compacting `Pop`. -/
theorem queue_fifo_len_compaction_witness :
    ((RWMutexQueue.Pop (runQOps (T := Nat) ⟨[], 0⟩ [QOp.pushQ [10, 20, 30], QOp.popQ])).1 =
      (aQueue [QOp.pushQ [10, 20, 30], QOp.popQ]).head? ∧
      RWMutexQueue.Peek (runQOps ⟨[], 0⟩ [QOp.pushQ [10, 20, 30], QOp.popQ]) =
        (aQueue [QOp.pushQ [10, 20, 30], QOp.popQ]).head? ∧
      RWMutexQueue.Slice (runQOps ⟨[], 0⟩ [QOp.pushQ [10, 20, 30], QOp.popQ]) =
        aQueue [QOp.pushQ [10, 20, 30], QOp.popQ] ∧
      RWMutexQueue.rangeList (runQOps ⟨[], 0⟩ [QOp.pushQ [10, 20, 30], QOp.popQ]) =
        aQueue [QOp.pushQ [10, 20, 30], QOp.popQ] ∧
      RWMutexQueue.Len (runQOps ⟨[], 0⟩ [QOp.pushQ [10, 20, 30], QOp.popQ]) =
        (aQueue [QOp.pushQ [10, 20, 30], QOp.popQ]).length) ∧
    ((65 : Nat) < (List.range 131).length →
      ((RWMutexQueue.Pop (⟨List.range 131, 65⟩ : QSt Nat)).2.head = 0 ↔
        65 + 1 > shrinkThreshold ∧ (65 + 1) * 2 ≥ (List.range 131).length) ∧
      ((65 + 1 > shrinkThreshold ∧ (65 + 1) * 2 ≥ (List.range 131).length) →
        (RWMutexQueue.Pop (⟨List.range 131, 65⟩ : QSt Nat)).2 =
          ⟨(List.range 131).drop (65 + 1), 0⟩)) :=
  ⟨(queue_fifo_len_compaction.1 [QOp.pushQ [10, 20, 30], QOp.popQ]),
    fun h => queue_fifo_len_compaction.2 ⟨List.range 131, 65⟩ h⟩

end QueueProofs

/-!
## Lock/snapshot discipline of `Range`/`All` traversals (C6)

Each traversal is modelled by its trace of lock events and visitor calls,
read off the source.  Three disciplines coexist in the repository:
snapshot-style traversals (`Range` of the priority queues/heap/queue,
`All` of `MutexMap`, `RWMutexMap` and `RWMutexSet`) copy (or reslice)
under the lock, release it, and only then invoke the visitor;
`MutexMap.Range`, `RWMutexMap.Range` and `RWMutexSet.Range` invoke the
visitor while still holding the lock; and `SyncMap.Range`, `SyncMap.All`
and `SyncMapSet.Range` delegate to `sync.Map.Range`, which iterates the
live map with no lock and no snapshot, so mutations made during the
traversal — including by the callback itself — can alter the set of
elements visited.
-/

/-- A lock-discipline event: lock transitions, or a call of the
visitor/yield callback on an element. -/
inductive LockEvent (T : Type) where
  | acquireRead : LockEvent T
  | acquireWrite : LockEvent T
  | releaseRead : LockEvent T
  | releaseWrite : LockEvent T
  | visit : T → LockEvent T

/-- The elements the Go loop `for _, it := range l { if !f(it) { break } }`
calls `f` on. -/
def visitCalls {T : Type} (f : T → Bool) : List T → List T
  | [] => []
  | x :: xs => if f x then x :: visitCalls f xs else [x]

/-- Trace of `Range` on the priority-queue/heap family
(`CorePriorityQueue.Range`, `IndexedPriorityQueue.Range`,
`RWMutexPriorityQueue.Range`, `RWMutexHeap.Range`): copy the snapshot
under `RLock`, release, then visit the snapshot. -/
def rangeEventsPQ {T : Type} (s : St T) (f : T → Bool) : List (LockEvent T) :=
  [.acquireRead, .releaseRead] ++ (visitCalls f (slicePQ s)).map .visit

/-- Trace of `RWMutexQueue.Range`: reslice `items[head:]` under `RLock`,
release, then visit. -/
def rangeEventsQueue {T : Type} (s : QSt T) (f : T → Bool) : List (LockEvent T) :=
  [.acquireRead, .releaseRead] ++
    (visitCalls f (RWMutexQueue.rangeList s)).map .visit

/-- Trace of `RWMutexSet.All`: copy the elements under `RLock`, release,
then yield. -/
def allEventsRWMutexSet {T : Type} (items : List T) (f : T → Bool) :
    List (LockEvent T) :=
  [.acquireRead, .releaseRead] ++ (visitCalls f items).map .visit

/-- Trace of `RWMutexMap.All`: clone the map under `RLock`, release, then
yield (elements are key/value entries). -/
def allEventsRWMutexMap {T : Type} (entries : List T) (f : T → Bool) :
    List (LockEvent T) :=
  [.acquireRead, .releaseRead] ++ (visitCalls f entries).map .visit

/-- Trace of `MutexMap.All`: clone the map under `Lock`, release, then
yield (elements are key/value entries). -/
def allEventsMutexMap {T : Type} (entries : List T) (f : T → Bool) :
    List (LockEvent T) :=
  [.acquireWrite, .releaseWrite] ++ (visitCalls f entries).map .visit

/-- Modelled from the documented contract of the Go standard library's
`sync.Map.Range` (external to the repository), to which `SyncMap.Range`,
`SyncMap.All` and `SyncMapSet.Range` delegate directly: the live map is
iterated with no lock and no snapshot, no key is visited more than once,
and a delete performed during the iteration — including by the callback —
may be reflected in the remainder of the traversal.  The callback returns
whether to continue plus the predicate describing which not-yet-visited
entries survive the mutations it performed. -/
def syncRangeLive {K V : Type} (f : K × V → Bool × (K × V → Bool)) :
    List (K × V) → List (K × V)
  | [] => []
  | e :: rest =>
    let r := f e
    if r.1 then e :: syncRangeLive f (rest.filter r.2) else [e]
termination_by l => l.length
decreasing_by
  have := List.length_filter_le (f e).2 rest
  simp only [List.length_cons]
  omega

/-- Trace of `SyncMap.All` (and `SyncMap.Range`, `SyncMapSet.Range`): only
visitor calls — no lock is ever taken and no snapshot is made. -/
def allEventsSyncMap {K V : Type} (entries : List (K × V))
    (f : K × V → Bool × (K × V → Bool)) : List (LockEvent (K × V)) :=
  (syncRangeLive f entries).map .visit

/-- Trace of `RWMutexSet.Range`: the loop body runs between `RLock` and
`RUnlock` — no snapshot is taken. -/
def rangeEventsRWMutexSet {T : Type} (items : List T) (f : T → Bool) :
    List (LockEvent T) :=
  [.acquireRead] ++ (visitCalls f items).map .visit ++ [.releaseRead]

/-- Trace of `RWMutexMap.Range`: the loop body runs between `Lock` and
`Unlock` (the full write lock) — no snapshot is taken. -/
def rangeEventsRWMutexMap {T : Type} (entries : List T) (f : T → Bool) :
    List (LockEvent T) :=
  [.acquireWrite] ++ (visitCalls f entries).map .visit ++ [.releaseWrite]

/-- Trace of `MutexMap.Range`: the loop body runs between `Lock` and
`Unlock`. -/
def rangeEventsMutexMap {T : Type} (entries : List T) (f : T → Bool) :
    List (LockEvent T) :=
  [.acquireWrite] ++ (visitCalls f entries).map .visit ++ [.releaseWrite]

/-- Every visitor call in the trace happens with no lock held (`depth` is
the number of locks currently held). -/
def visitsUnlocked {T : Type} : List (LockEvent T) → Nat → Bool
  | [], _ => true
  | .acquireRead :: rest, depth => visitsUnlocked rest (depth + 1)
  | .acquireWrite :: rest, depth => visitsUnlocked rest (depth + 1)
  | .releaseRead :: rest, depth => visitsUnlocked rest (depth - 1)
  | .releaseWrite :: rest, depth => visitsUnlocked rest (depth - 1)
  | .visit _ :: rest, depth =>
    if depth = 0 then visitsUnlocked rest depth else false

/-- Every visitor call in the trace happens while at least one lock is
held. -/
def visitsUnderLock {T : Type} : List (LockEvent T) → Nat → Bool
  | [], _ => true
  | .acquireRead :: rest, depth => visitsUnderLock rest (depth + 1)
  | .acquireWrite :: rest, depth => visitsUnderLock rest (depth + 1)
  | .releaseRead :: rest, depth => visitsUnderLock rest (depth - 1)
  | .releaseWrite :: rest, depth => visitsUnderLock rest (depth - 1)
  | .visit _ :: rest, depth =>
    if depth = 0 then false else visitsUnderLock rest depth

section TraceProofs

variable {T : Type}

theorem visitsUnlocked_map_visit (l : List T) :
    visitsUnlocked (l.map LockEvent.visit) 0 = true := by
  induction l with
  | nil => rfl
  | cons x xs IH =>
    simp only [List.map_cons, visitsUnlocked, if_pos rfl]
    exact IH

theorem visitsUnderLock_map_visit_rel (l : List T) (e : LockEvent T)
    (he : e = .releaseRead ∨ e = .releaseWrite) :
    visitsUnderLock (l.map LockEvent.visit ++ [e]) 1 = true := by
  induction l with
  | nil =>
    rcases he with he | he <;> subst he <;> rfl
  | cons x xs IH =>
    simp only [List.map_cons, List.cons_append, visitsUnderLock,
      if_neg (by omega : (1 : Nat) ≠ 0)]
    exact IH

/-- C6 (amended): the snapshot-taking traversals — `Range` of the priority
queue/heap family and of the queue, and the `All` iterators of `MutexMap`,
`RWMutexMap` and `RWMutexSet` — call the visitor only after the lock is
released, and the visited elements are computed from the snapshot alone (so
mutation after the snapshot, including reentrant mutation from the visitor,
cannot change the visited set); `MutexMap.Range`, `RWMutexMap.Range` and
`RWMutexSet.Range`, by contrast, run every visitor call while holding the
lock; and `SyncMap.Range`/`SyncMap.All`/`SyncMapSet.Range` iterate the live
`sync.Map` holding no lock at all (so they cannot deadlock), but with no
snapshot: a callback that mutates the map alters the set of elements the
in-progress traversal visits (last conjunct: deleting the unvisited key `1`
while visiting key `0` shortens the traversal, while a snapshot traversal
of the same initial content visits both entries). -/
theorem range_snapshot_discipline :
    (∀ (s : St T) (f : T → Bool),
      visitsUnlocked (rangeEventsPQ s f) 0 = true) ∧
    (∀ (s : QSt T) (f : T → Bool),
      visitsUnlocked (rangeEventsQueue s f) 0 = true) ∧
    (∀ (items : List T) (f : T → Bool),
      visitsUnlocked (allEventsRWMutexSet items f) 0 = true) ∧
    (∀ (entries : List T) (f : T → Bool),
      visitsUnlocked (allEventsRWMutexMap entries f) 0 = true) ∧
    (∀ (entries : List T) (f : T → Bool),
      visitsUnlocked (allEventsMutexMap entries f) 0 = true) ∧
    (∀ (items : List T) (f : T → Bool),
      visitsUnderLock (rangeEventsRWMutexSet items f) 0 = true) ∧
    (∀ (entries : List T) (f : T → Bool),
      visitsUnderLock (rangeEventsRWMutexMap entries f) 0 = true) ∧
    (∀ (entries : List T) (f : T → Bool),
      visitsUnderLock (rangeEventsMutexMap entries f) 0 = true) ∧
    (∀ (K V : Type) (entries : List (K × V))
      (f : K × V → Bool × (K × V → Bool)),
      visitsUnlocked (allEventsSyncMap entries f) 0 = true) ∧
    (syncRangeLive (fun _ => (true, fun p => decide (p.1 ≠ 1)))
        [((0 : Nat), (0 : Nat)), (1, 1)] = [(0, 0)] ∧
      visitCalls (fun _ => true) [((0 : Nat), (0 : Nat)), (1, 1)] =
        [(0, 0), (1, 1)]) := by
  refine ⟨?_, ?_, ?_, ?_, ?_, ?_, ?_, ?_, ?_, ?_, ?_⟩
  · intro s f
    exact visitsUnlocked_map_visit (visitCalls f (slicePQ s))
  · intro s f
    exact visitsUnlocked_map_visit (visitCalls f (RWMutexQueue.rangeList s))
  · intro items f
    exact visitsUnlocked_map_visit (visitCalls f items)
  · intro entries f
    exact visitsUnlocked_map_visit (visitCalls f entries)
  · intro entries f
    exact visitsUnlocked_map_visit (visitCalls f entries)
  · intro items f
    exact visitsUnderLock_map_visit_rel (visitCalls f items) _ (Or.inl rfl)
  · intro entries f
    exact visitsUnderLock_map_visit_rel (visitCalls f entries) _ (Or.inr rfl)
  · intro entries f
    exact visitsUnderLock_map_visit_rel (visitCalls f entries) _ (Or.inr rfl)
  · intro K V entries f
    exact visitsUnlocked_map_visit (syncRangeLive f entries)
  · rw [syncRangeLive]
    norm_num
    rw [syncRangeLive]
  · rfl

/-- C6 as literally stated is false: `RWMutexSet.Range` (and
`RWMutexMap.Range`) invoke the visitor while the lock is held — on a
one-element set the single visitor call happens at lock depth 1, not 0. -/
theorem range_lock_held_counterexample :
    visitsUnlocked (rangeEventsRWMutexSet [(0 : Nat)] (fun _ => true)) 0 =
      false ∧
    visitsUnlocked (rangeEventsRWMutexMap [((0 : Nat), (0 : Nat))]
      (fun _ => true)) 0 = false := by
  constructor <;> rfl

end TraceProofs

end Threadsafe
